import Mathlib

/-!
Verification of the jazz-chords guitar voicing engine.

This file gives a shallow embedding, in Lean 4, of the core logic of the
repository: the music-theory engine (`music-theory.ts`), the voicing
generator (`voicing-generator.ts`), the progression / voice-leading engine
(`progression-generator.ts`), the playback scheduler step logic
(`useSequencer.ts`), the adaptive rhythm triggers (`rhythm-patterns.ts`)
and the persisted-sequence validator (`persistence-utils.ts`), together
with theorems checking the specification's claims against those
definitions.

Modelling conventions:
- JavaScript strings are Lean `String`s, JS integer arithmetic is `ℤ`/`ℕ`
  (JS `%` on possibly-negative operands is `Int.tmod`, which truncates
  toward zero exactly like JS).
- The few non-integer JS numbers (beat durations such as 0.5 and rhythm
  offsets such as 1.2) are `ℚ`.
- `Array.prototype.sort(cmp)` (a stable sort by the comparator's key) is
  modelled by Mathlib's `List.insertionSort`, which is a stable sort.
- JS `array[i]` reads inside loops whose index is known in range are
  modelled with `List.getD`.
- Fallible functions returning `null` are modelled with `Option`.
-/

/-! ## Generic helpers (JS semantics) -/

/-- Character-list test: does the first list occur as the initial segment
of the second?  Helper for the substring test below. -/
def startsWithChars : List Char → List Char → Bool
  | [], _ => true
  | _ :: _, [] => false
  | p :: ps, c :: cs => p = c && startsWithChars ps cs

/-- Character-list substring search (occurs-anywhere). -/
def hasSubChars (pat : List Char) : List Char → Bool
  | [] => startsWithChars pat []
  | l@(_ :: cs) => startsWithChars pat l || hasSubChars pat cs

/-- JS `s.includes(pat)`: substring containment on strings. -/
def subStrContains (s pat : String) : Bool :=
  hasSubChars pat.toList s.toList

/-- JS `s.endsWith('A')` for the single character 'A': the last character
of the string is 'A'. -/
def endsWithA (s : String) : Bool :=
  s.toList.getLast? == some 'A'

/-- JS `array.indexOf(x)`: index of the first occurrence, `-1` if absent. -/
def jsIndexOf (x : String) : List String → ℤ
  | [] => -1
  | y :: ys =>
    if y = x then 0
    else
      let r := jsIndexOf x ys
      if r = -1 then -1 else r + 1

/-- JS `Math.min(...list)` for a nonempty list (`0` as a dummy for `[]`,
which never occurs at call sites). -/
def listMin : List ℕ → ℕ
  | [] => 0
  | x :: xs => xs.foldl min x

/-- JS `Math.max(...list)` for a nonempty list (`0` as a dummy for `[]`). -/
def listMax : List ℕ → ℕ
  | [] => 0
  | x :: xs => xs.foldl max x

/-! ## music-theory.ts -/

/-- Chord components produced by `parseChord`. -/
structure ChordComponents where
  root : String
  quality : String
  intervals : List String
  deriving Repr, DecidableEq

/-- The sharp spelling table (`NOTES_SHARP`). -/
def NOTES_SHARP : List String :=
  ["C", "C#", "D", "D#", "E", "F"] ++ ["F#", "G", "G#", "A", "A#", "B"]

/-- The flat spelling table (`NOTES_FLAT`). -/
def NOTES_FLAT : List String :=
  ["C", "Db", "D", "Eb", "E", "F", "Gb", "G", "Ab", "A", "Bb", "B"]

/-- `getNoteIndex`: strip octave digits, look the name up first in the
sharp table, then in the flat table; `-1` when unknown. -/
def getNoteIndex (note : String) : ℤ :=
  let n := String.mk (note.toList.filter (fun c => !c.isDigit))
  let idx := jsIndexOf n NOTES_SHARP
  if idx = -1 then jsIndexOf n NOTES_FLAT else idx

/-- `useFlats`: heuristic choice of flat spelling keyed on root letter and
quality label. -/
def useFlats (root : String) (quality : String) : Bool :=
  if subStrContains root "b" then true
  else if subStrContains root "#" then false
  else if root = "F" then true
  else if root = "C" then
    subStrContains quality "Minor" || subStrContains quality "Dominant" ||
      subStrContains quality "Diminished"
  else if root = "D" then
    subStrContains quality "Minor" || subStrContains quality "Diminished"
  else if root = "G" then
    subStrContains quality "Minor" || subStrContains quality "Diminished"
  else if subStrContains quality "Minor" || subStrContains quality "Diminished" then
    root = "D" || root = "G" || root = "C" || root = "F"
  else if root = "F" then true
  else if root = "C" && subStrContains quality "Dominant" then true
  else false

/-- `transpose(root, semitones, preferFlats)`: modular arithmetic over the
12-tone circle (JS `%` truncates toward zero, hence `Int.tmod`, followed
by the explicit negative fix-up). -/
def transpose (root : String) (semitones : ℤ) (preferFlats : Bool) : String :=
  let idx := getNoteIndex root
  if idx = -1 then root
  else
    let newIdx := Int.tmod (idx + semitones) 12
    let newIdx := if newIdx < 0 then newIdx + 12 else newIdx
    (if preferFlats then NOTES_FLAT else NOTES_SHARP).getD newIdx.toNat ""

/-- The suffix branch of `parseChord`: the if/else chain mapping the text
after the root to a quality label and interval list. -/
def chordFromSuffix (root rest : String) : Option ChordComponents :=
  if rest = "" ∨ rest = "maj" ∨ rest = "M" then
    some ⟨root, "Major", ["1P", "3M", "5P"]⟩
  else if rest = "m" ∨ rest = "min" ∨ rest = "-" then
    some ⟨root, "Minor", ["1P", "3m", "5P"]⟩
  else if rest = "7" ∨ rest = "dom7" then
    some ⟨root, "Dominant 7", ["1P", "3M", "5P", "7m"]⟩
  else if rest = "maj7" ∨ rest = "M7" ∨ rest = "Maj7" then
    some ⟨root, "Major 7", ["1P", "3M", "5P", "7M"]⟩
  else if rest = "maj7#4" ∨ rest = "M7#4" ∨ rest = "maj7(#4)" ∨ rest = "M7(#4)" then
    some ⟨root, "Major 7 #4", ["1P", "3M", "4A", "7M"]⟩
  else if rest = "m7" ∨ rest = "min7" ∨ rest = "-7" then
    some ⟨root, "Minor 7", ["1P", "3m", "5P", "7m"]⟩
  else if rest = "m7b5" ∨ rest = "m7(b5)" ∨ rest = "min7(b5)" ∨ rest = "min7(5b)" ∨
      rest = "ø" ∨ rest = "ø7" then
    some ⟨root, "Half Diminished", ["1P", "3m", "5d", "7m"]⟩
  else if rest = "dim" ∨ rest = "dim7" ∨ rest = "o" ∨ rest = "o7" then
    some ⟨root, "Diminished 7", ["1P", "3m", "5d", "6M"]⟩
  else if rest = "6" ∨ rest = "maj6" ∨ rest = "M6" then
    some ⟨root, "Major 6", ["1P", "3M", "5P", "6M"]⟩
  else if rest = "m6" ∨ rest = "min6" ∨ rest = "-6" then
    some ⟨root, "Minor 6", ["1P", "3m", "5P", "6M"]⟩
  else if rest = "maj9" ∨ rest = "M9" ∨ rest = "Maj9" then
    some ⟨root, "Major 9", ["1P", "3M", "5P", "7M", "9M"]⟩
  else if rest = "9" ∨ rest = "dom9" then
    some ⟨root, "Dominant 9", ["1P", "3M", "5P", "7m", "9M"]⟩
  else if rest = "7b9" ∨ rest = "7(b9)" ∨ rest = "dom7(b9)" then
    some ⟨root, "Dominant 7(b9)", ["1P", "3M", "5P", "7m", "9m"]⟩
  else if rest = "m7b9" ∨ rest = "min7(b9)" ∨ rest = "-7(b9)" then
    some ⟨root, "Minor 7(b9)", ["1P", "3m", "5P", "7m", "9m"]⟩
  else if rest = "m9" ∨ rest = "min9" ∨ rest = "-9" then
    some ⟨root, "Minor 9", ["1P", "3m", "5P", "7m", "9M"]⟩
  else if rest = "mmaj7" ∨ rest = "minmaj7" ∨ rest = "-maj7" then
    some ⟨root, "Minor Major 7", ["1P", "3m", "5P", "7M"]⟩
  else if rest = "maj7#5" ∨ rest = "maj7(#5)" ∨ rest = "M7#5" ∨ rest = "M7(#5)" then
    some ⟨root, "Augmented Major 7", ["1P", "3M", "5A", "7M"]⟩
  else if rest = "dom7#5" ∨ rest = "dom7(#5)" ∨ rest = "7#5" ∨ rest = "7(#5)" then
    some ⟨root, "Augmented Dominant 7", ["1P", "3M", "5A", "7m"]⟩
  else if rest = "dom7#11" ∨ rest = "7#11" ∨ rest = "dom7(#11)" ∨ rest = "7(#11)" then
    some ⟨root, "Dominant 7 #11", ["1P", "3M", "5P", "7m", "11A"]⟩
  else if rest = "dom7sus4" ∨ rest = "7sus4" then
    some ⟨root, "Dominant 7 sus4", ["1P", "4P", "5P", "7m"]⟩
  else if rest = "alt" ∨ rest = "7alt" ∨ rest = "dom7alt" then
    some ⟨root, "Altered Dominant", ["1P", "3M", "7m"]⟩
  else none

/-- `parseChord(name)`: match the leading root token (`A`–`G` optionally
followed by `#` or `b`, the regex `^([A-G][#b]?)(.*)$` being greedy on the
accidental) and dispatch on the remaining suffix. -/
def parseChord (name : String) : Option ChordComponents :=
  match name.toList with
  | [] => none
  | c :: cs =>
    if 'A' ≤ c ∧ c ≤ 'G' then
      match cs with
      | [] => chordFromSuffix (String.mk [c]) ""
      | d :: cs2 =>
        if d = '#' ∨ d = 'b' then chordFromSuffix (String.mk [c, d]) (String.mk cs2)
        else chordFromSuffix (String.mk [c]) (String.mk cs)
    else none

/-- The semitone switch inside `getNotesFromIntervals`; the JS `switch`
leaves the initial value `0` for any code it does not list. -/
def intervalSemitones (interval : String) : ℤ :=
  if interval = "1P" then 0
  else if interval = "3m" then 3
  else if interval = "3M" then 4
  else if interval = "4P" then 5
  else if interval = "4A" then 6
  else if interval = "5d" then 6
  else if interval = "5P" then 7
  else if interval = "5A" then 8
  else if interval = "6M" then 9
  else if interval = "7m" then 10
  else if interval = "7M" then 11
  else if interval = "9m" then 13
  else if interval = "9M" then 14
  else if interval = "9A" then 15
  else if interval = "11A" then 18
  else 0

/-- `getNotesFromIntervals(root, intervals)`: re-derive a quality label
from the interval set, pick the global flat preference, then transpose the
root by each interval's semitone count, forcing sharps for augmented
(`…A`) interval codes. -/
def getNotesFromIntervals (root : String) (intervals : List String) : List String :=
  let rootIdx := getNoteIndex root
  if rootIdx = -1 then []
  else
    let isMinor := intervals.contains "3m"
    let isDom := intervals.contains "7m" &&
      (intervals.contains "3M" || intervals.contains "4P")
    let isDim := intervals.contains "5d"
    let quality :=
      if isDim then "Diminished"
      else if isDom then "Dominant"
      else if isMinor then "Minor"
      else "Major"
    let preferFlats := useFlats root quality
    intervals.map (fun interval =>
      let semitones := intervalSemitones interval
      let localPreferFlats := if endsWithA interval then false else preferFlats
      transpose root semitones localPreferFlats)

/-- `formatInterval`: interval code to display label, falling back to the
code itself (the JS `map[interval] || interval`). -/
def formatInterval (interval : String) : String :=
  if interval = "1P" then "1"
  else if interval = "3m" then "b3"
  else if interval = "3M" then "3"
  else if interval = "4P" then "4"
  else if interval = "4A" then "#4"
  else if interval = "5d" then "b5"
  else if interval = "5P" then "5"
  else if interval = "5A" then "#5"
  else if interval = "6M" then "6"
  else if interval = "7m" then "b7"
  else if interval = "7M" then "7"
  else if interval = "9m" then "b9"
  else if interval = "9M" then "9"
  else if interval = "9A" then "#9"
  else if interval = "11P" then "11"
  else if interval = "11A" then "#11"
  else if interval = "13M" then "13"
  else interval

/-- JS object write `map[k] = v`: overwrite the value of an existing key
in place, otherwise append the new binding. -/
def recordSet (m : List (String × String)) (k v : String) : List (String × String) :=
  if m.any (fun p => p.1 = k) then
    m.map (fun p => if p.1 = k then (k, v) else p)
  else m ++ [(k, v)]

/-- `getIntervalMap(root, intervals)`: zip resolved notes with formatted
interval labels into a JS object (last write wins), skipping falsy (empty)
interval codes. -/
def getIntervalMap (root : String) (intervals : List String) : List (String × String) :=
  let notes := getNotesFromIntervals root intervals
  (notes.zip intervals).foldl
    (fun m p => if p.2 ≠ "" then recordSet m p.1 (formatInterval p.2) else m) []

/-! ### Specification-side definitions for the music theory claims -/

/-- The quality table of `parseChord`, claim-side: one row per recognized
suffix alias, giving the quality label and interval list. -/
def suffixAliasTable : List (String × String × List String) :=
  [("", ("Major", ["1P", "3M", "5P"])),
   ("maj", ("Major", ["1P", "3M", "5P"])),
   ("M", ("Major", ["1P", "3M", "5P"])),
   ("m", ("Minor", ["1P", "3m", "5P"])),
   ("min", ("Minor", ["1P", "3m", "5P"])),
   ("-", ("Minor", ["1P", "3m", "5P"])),
   ("7", ("Dominant 7", ["1P", "3M", "5P", "7m"])),
   ("dom7", ("Dominant 7", ["1P", "3M", "5P", "7m"])),
   ("maj7", ("Major 7", ["1P", "3M", "5P", "7M"])),
   ("M7", ("Major 7", ["1P", "3M", "5P", "7M"])),
   ("Maj7", ("Major 7", ["1P", "3M", "5P", "7M"])),
   ("maj7#4", ("Major 7 #4", ["1P", "3M", "4A", "7M"])),
   ("M7#4", ("Major 7 #4", ["1P", "3M", "4A", "7M"])),
   ("maj7(#4)", ("Major 7 #4", ["1P", "3M", "4A", "7M"])),
   ("M7(#4)", ("Major 7 #4", ["1P", "3M", "4A", "7M"])),
   ("m7", ("Minor 7", ["1P", "3m", "5P", "7m"])),
   ("min7", ("Minor 7", ["1P", "3m", "5P", "7m"])),
   ("-7", ("Minor 7", ["1P", "3m", "5P", "7m"])),
   ("m7b5", ("Half Diminished", ["1P", "3m", "5d", "7m"])),
   ("m7(b5)", ("Half Diminished", ["1P", "3m", "5d", "7m"])),
   ("min7(b5)", ("Half Diminished", ["1P", "3m", "5d", "7m"])),
   ("min7(5b)", ("Half Diminished", ["1P", "3m", "5d", "7m"])),
   ("ø", ("Half Diminished", ["1P", "3m", "5d", "7m"])),
   ("ø7", ("Half Diminished", ["1P", "3m", "5d", "7m"])),
   ("dim", ("Diminished 7", ["1P", "3m", "5d", "6M"])),
   ("dim7", ("Diminished 7", ["1P", "3m", "5d", "6M"])),
   ("o", ("Diminished 7", ["1P", "3m", "5d", "6M"])),
   ("o7", ("Diminished 7", ["1P", "3m", "5d", "6M"])),
   ("6", ("Major 6", ["1P", "3M", "5P", "6M"])),
   ("maj6", ("Major 6", ["1P", "3M", "5P", "6M"])),
   ("M6", ("Major 6", ["1P", "3M", "5P", "6M"])),
   ("m6", ("Minor 6", ["1P", "3m", "5P", "6M"])),
   ("min6", ("Minor 6", ["1P", "3m", "5P", "6M"])),
   ("-6", ("Minor 6", ["1P", "3m", "5P", "6M"])),
   ("maj9", ("Major 9", ["1P", "3M", "5P", "7M", "9M"])),
   ("M9", ("Major 9", ["1P", "3M", "5P", "7M", "9M"])),
   ("Maj9", ("Major 9", ["1P", "3M", "5P", "7M", "9M"])),
   ("9", ("Dominant 9", ["1P", "3M", "5P", "7m", "9M"])),
   ("dom9", ("Dominant 9", ["1P", "3M", "5P", "7m", "9M"])),
   ("7b9", ("Dominant 7(b9)", ["1P", "3M", "5P", "7m", "9m"])),
   ("7(b9)", ("Dominant 7(b9)", ["1P", "3M", "5P", "7m", "9m"])),
   ("dom7(b9)", ("Dominant 7(b9)", ["1P", "3M", "5P", "7m", "9m"])),
   ("m7b9", ("Minor 7(b9)", ["1P", "3m", "5P", "7m", "9m"])),
   ("min7(b9)", ("Minor 7(b9)", ["1P", "3m", "5P", "7m", "9m"])),
   ("-7(b9)", ("Minor 7(b9)", ["1P", "3m", "5P", "7m", "9m"])),
   ("m9", ("Minor 9", ["1P", "3m", "5P", "7m", "9M"])),
   ("min9", ("Minor 9", ["1P", "3m", "5P", "7m", "9M"])),
   ("-9", ("Minor 9", ["1P", "3m", "5P", "7m", "9M"])),
   ("mmaj7", ("Minor Major 7", ["1P", "3m", "5P", "7M"])),
   ("minmaj7", ("Minor Major 7", ["1P", "3m", "5P", "7M"])),
   ("-maj7", ("Minor Major 7", ["1P", "3m", "5P", "7M"])),
   ("maj7#5", ("Augmented Major 7", ["1P", "3M", "5A", "7M"])),
   ("maj7(#5)", ("Augmented Major 7", ["1P", "3M", "5A", "7M"])),
   ("M7#5", ("Augmented Major 7", ["1P", "3M", "5A", "7M"])),
   ("M7(#5)", ("Augmented Major 7", ["1P", "3M", "5A", "7M"])),
   ("dom7#5", ("Augmented Dominant 7", ["1P", "3M", "5A", "7m"])),
   ("dom7(#5)", ("Augmented Dominant 7", ["1P", "3M", "5A", "7m"])),
   ("7#5", ("Augmented Dominant 7", ["1P", "3M", "5A", "7m"])),
   ("7(#5)", ("Augmented Dominant 7", ["1P", "3M", "5A", "7m"])),
   ("dom7#11", ("Dominant 7 #11", ["1P", "3M", "5P", "7m", "11A"])),
   ("7#11", ("Dominant 7 #11", ["1P", "3M", "5P", "7m", "11A"])),
   ("dom7(#11)", ("Dominant 7 #11", ["1P", "3M", "5P", "7m", "11A"])),
   ("7(#11)", ("Dominant 7 #11", ["1P", "3M", "5P", "7m", "11A"])),
   ("dom7sus4", ("Dominant 7 sus4", ["1P", "4P", "5P", "7m"])),
   ("7sus4", ("Dominant 7 sus4", ["1P", "4P", "5P", "7m"])),
   ("alt", ("Altered Dominant", ["1P", "3M", "7m"])),
   ("7alt", ("Altered Dominant", ["1P", "3M", "7m"])),
   ("dom7alt", ("Altered Dominant", ["1P", "3M", "7m"]))]

/-- Claim-side lookup of a suffix in the quality table. -/
def lookupSuffix (rest : String) : Option (String × List String) :=
  suffixAliasTable.lookup rest

/-- Claim-side predicate: a root token is `A`–`G` optionally followed by
`#` or `b`. -/
def isRootToken (root : String) : Bool :=
  match root.toList with
  | [c] => 'A' ≤ c && c ≤ 'G'
  | [c, d] => ('A' ≤ c && c ≤ 'G') && (d = '#' || d = 'b')
  | _ => false

/-- The interval codes that the semitone switch of
`getNotesFromIntervals` recognizes. -/
def knownIntervalCodes : List String :=
  ["1P", "3m", "3M", "4P", "4A", "5d", "5P", "5A", "6M", "7m", "7M",
   "9m", "9M", "9A", "11A"]

/-! ## voicing-generator.ts -/

/-- A fretboard position (string 0 = low E). -/
structure FretPosition where
  string : ℕ
  fret : ℕ
  note : String
  deriving Repr, DecidableEq, Inhabited

/-- A named voicing: a list of fret positions. -/
structure Voicing where
  name : String
  positions : List FretPosition
  deriving Repr, DecidableEq

/-- The closed enumeration of voicing types. -/
inductive VoicingType where
  | Drop2
  | Drop3
  | Drop2_4
  | Shell
  | FreddieGreen
  deriving Repr, DecidableEq

/-- Standard-tuning open string pitch-class indices (E A D G B E). -/
def openStringIndices : List ℕ := [4, 9, 2, 7, 11, 4]

/-- `getNoteAtFret`: pitch class sounded at (string, fret), spelled from
the sharp table. -/
def getNoteAtFret (stringIdx : ℕ) (fret : ℕ) : String :=
  NOTES_SHARP.getD ((openStringIndices.getD stringIdx 0 + fret) % 12) ""

/-- `isSameNote`: pitch-class equality of two spellings. -/
def isSameNote (n1 n2 : String) : Bool :=
  getNoteIndex n1 == getNoteIndex n2

/-- The `cartesian` helper: product of the per-string candidate lists
(a fold of flatMaps, exactly as the JS reduce). -/
def cartesian (arrays : List (List FretPosition)) : List (List FretPosition) :=
  arrays.foldl (fun a b => a.flatMap (fun d => b.map (fun e => d ++ [e]))) [[]]

/-- The frets of a combination. -/
def fretsOf (ps : List FretPosition) : List ℕ := ps.map (·.fret)

/-- Fret span (max fret minus min fret) of a combination. -/
def spanOf (ps : List FretPosition) : ℕ :=
  listMax (fretsOf ps) - listMin (fretsOf ps)

/-- The per-string fret scan: all frets in `1..maxFret` sounding the
target pitch class on the given string (no open strings). -/
def stringPositions (s : ℕ) (target : String) (maxFret : ℕ) : List FretPosition :=
  (List.range' 1 maxFret).filterMap (fun f =>
    if isSameNote (getNoteAtFret s f) target then some ⟨s, f, target⟩ else none)

/-- The common search core of `tryVoicing` and `tryShape`: per-string fret
scan, cartesian product, span filter, stable sort by lowest fret
(`Array.prototype.sort` is stable; modelled by insertion sort), and the
lowest combination if any. -/
def fretSearch (targetNotes : List String) (stringSet : List ℕ)
    (n maxFret limit : ℕ) : Option (List FretPosition) :=
  let possiblePositions := (List.range n).map (fun k =>
    stringPositions (stringSet.getD k 0) (targetNotes.getD k "") maxFret)
  let combinations := cartesian possiblePositions
  let validCombinations := combinations.filter (fun combo => spanOf combo ≤ limit)
  (List.insertionSort
    (fun a b => listMin (fretsOf a) ≤ listMin (fretsOf b)) validCombinations).head?

/-- The global dedup + push step shared by `tryVoicing` and `tryShape`:
append the voicing unless its exact (string, fret) signature is already
present. -/
def pushVoicing (voicings : List Voicing) (name : String)
    (combo : List FretPosition) : List Voicing :=
  let signature := combo.map (fun p => (p.string, p.fret))
  if voicings.any (fun v => v.positions.map (fun p => (p.string, p.fret)) == signature) then
    voicings
  else voicings ++ [{ name := name, positions := combo }]

/-- Span limits: `Drop2_4` allows a span of 5, all other types 4. -/
def spanLimit : VoicingType → ℕ
  | .Drop2_4 => 5
  | _ => 4

/-- Default string sets per drop type. -/
def defaultStringSet : VoicingType → List ℕ
  | .Drop2 => [2, 3, 4, 5]
  | .Drop3 => [0, 2, 3, 4]
  | _ => [0, 1, 2, 3]

/-- The `order` array mapping close inversions to named drop inversions. -/
def dropOrder : VoicingType → List ℕ
  | .Drop2 => [2, 3, 0, 1]
  | .Drop3 => [3, 0, 1, 2]
  | _ => [0, 1, 2, 3]

/-- Voice remapping from a close-position rotation to the dropped order. -/
def dropRemap (type : VoicingType) (inv : List String) : List String :=
  match type with
  | .Drop2 => [inv.getD 2 "", inv.getD 0 "", inv.getD 1 "", inv.getD 3 ""]
  | .Drop3 => [inv.getD 1 "", inv.getD 0 "", inv.getD 2 "", inv.getD 3 ""]
  | _ => [inv.getD 0 "", inv.getD 2 "", inv.getD 1 "", inv.getD 3 ""]

/-- The textual name of a voicing type (for the `${type} Var` labels). -/
def typeLabel : VoicingType → String
  | .Drop2 => "Drop2"
  | .Drop3 => "Drop3"
  | .Drop2_4 => "Drop2_4"
  | .Shell => "Shell"
  | .FreddieGreen => "FreddieGreen"

/-- `getInversions`: the four rotations of a 4-note list. -/
def rotationsOf (b : List String) : List (List String) :=
  [[b.getD 0 "", b.getD 1 "", b.getD 2 "", b.getD 3 ""],
   [b.getD 1 "", b.getD 2 "", b.getD 3 "", b.getD 0 ""],
   [b.getD 2 "", b.getD 3 "", b.getD 0 "", b.getD 1 ""],
   [b.getD 3 "", b.getD 0 "", b.getD 1 "", b.getD 2 ""]]

/-- Inversion display names for the primary drop voicings. -/
def standardNames : List String :=
  ["Root Position", "1st Inversion", "2nd Inversion", "3rd Inversion"]

/-- Display names for the close voicings. -/
def closeNames : List String :=
  ["Close Root Pos", "Close 1st Inv", "Close 2nd Inv", "Close 3rd Inv"]

/-- One `tryVoicing` call: search, then dedup-push on success. -/
def runAttempt (n maxFret limit : ℕ) (stringSet : List ℕ)
    (voicings : List Voicing) (att : List String × String) : List Voicing :=
  match fretSearch att.1 stringSet n maxFret limit with
  | none => voicings
  | some combo => pushVoicing voicings att.2 combo

/-- The sixteen (targetNotes, name) pairs attempted by the drop-voicing
path, in source order: primary (sorted-rotation) drop voicings with the
inversion names, input-rotation drop voicings named `<Type> Var`, close
forms of the sorted rotations, and close forms of the input rotations. -/
def dropAttempts (type : VoicingType) (notes : List String) : List (List String × String) :=
  let sortedNotes :=
    List.insertionSort (fun a b => getNoteIndex a ≤ getNoteIndex b) notes
  let inputInversions := rotationsOf notes
  let primaryInversions := rotationsOf sortedNotes
  ((dropOrder type).zip standardNames).map
      (fun p => (dropRemap type (primaryInversions.getD p.1 []), p.2))
    ++ inputInversions.map (fun inv => (dropRemap type inv, typeLabel type ++ " Var"))
    ++ (primaryInversions.zip closeNames).map (fun p => (p.1, p.2))
    ++ inputInversions.map (fun inv => (inv, "Close Var"))

/-- The fixed catalog of shell / Freddie Green shapes:
(targetNotes, name, stringSet) triples, in source order. -/
def shellAttempts (type : VoicingType) (notes : List String) :
    List (List String × String × List ℕ) :=
  let root := notes.getD 0 ""
  let third := notes.getD 1 ""
  let seventh := notes.getD 2 ""
  if type = .FreddieGreen then
    [([root, seventh, third], "FG Style (R-7-3)", [0, 2, 3]),
     ([root, seventh, third], "FG Style (R-7-3) A", [1, 2, 3]),
     ([root, third, seventh], "FG Style (R-3-7) A", [1, 2, 3])]
  else
    [([root, seventh, third], "Shell R6 (R-7-3)", [0, 2, 3]),
     ([root, third, seventh], "Shell R6 (R-3-7)", [0, 2, 3]),
     ([root, third, seventh], "Shell R5 (R-3-7)", [1, 2, 3]),
     ([root, seventh, third], "Shell R5 (R-7-3)", [1, 2, 3]),
     ([root, seventh, third], "Shell R5 (R-7-3) High", [1, 3, 4])]

/-- One `tryShape` call: search the shape's own string set (frets 1–16,
span limit 4), then dedup-push on success. -/
def runShellAttempt (voicings : List Voicing)
    (att : List String × String × List ℕ) : List Voicing :=
  match fretSearch att.1 att.2.2 3 16 4 with
  | none => voicings
  | some combo => pushVoicing voicings att.2.1 combo

/-- `generateShellVoicings`: try each fixed shape. -/
def generateShellVoicings (notes : List String) (type : VoicingType) : List Voicing :=
  (shellAttempts type notes).foldl runShellAttempt []

/-- `generateVoicings(notes, type, stringSetOverride)`: note-count guard,
then either the drop-voicing attempts (frets 1–18, type-dependent span
limit, caller string set or the type default) or the shell shapes. -/
def generateVoicings (notes : List String) (type : VoicingType)
    (stringSetOverride : Option (List ℕ)) : List Voicing :=
  if type = .Drop2 ∨ type = .Drop3 ∨ type = .Drop2_4 then
    if notes.length ≠ 4 then []
    else
      let stringSet := stringSetOverride.getD (defaultStringSet type)
      (dropAttempts type notes).foldl (runAttempt 4 18 (spanLimit type) stringSet) []
  else
    if notes.length ≠ 3 then []
    else generateShellVoicings notes type

/-! ## progression-generator.ts (feature-complete variant) -/

/-- The supported progression types. -/
inductive ProgressionType where
  | MajorII_V_I
  | MinorII_V_I
  | MajorBlues
  | MinorBlues
  | RhythmChanges
  | MajorI_vi_ii_V
  | Major_iii_vi_ii_V
  | MinorTurnaround
  | RhythmChangesBridge
  deriving Repr, DecidableEq

/-- One progression template row set: scale-degree semitone offsets,
chord suffixes, and durations in measures. -/
structure ProgressionTemplate where
  degrees : List ℤ
  suffixes : List String
  measures : List ℚ
  deriving Repr

/-- The `PROGRESSIONS` table. -/
def PROGRESSIONS : ProgressionType → ProgressionTemplate
  | .MajorII_V_I =>
    ⟨[2, 7, 0, 0], ["m7", "7", "maj7", "maj7"], [1, 1, 1, 1]⟩
  | .MinorII_V_I =>
    ⟨[2, 7, 0, 0], ["m7b5", "7alt", "m7", "m7"], [1, 1, 1, 1]⟩
  | .MajorI_vi_ii_V =>
    ⟨[0, 9, 2, 7], ["maj7", "m7", "m7", "7"], [1, 1, 1, 1]⟩
  | .Major_iii_vi_ii_V =>
    ⟨[4, 9, 2, 7], ["m7", "m7", "m7", "7"], [1, 1, 1, 1]⟩
  | .MinorTurnaround =>
    ⟨[0, 8, 2, 7], ["m7", "maj7", "m7b5", "7alt"], [1, 1, 1, 1]⟩
  | .RhythmChangesBridge =>
    ⟨[4, 9, 2, 7], ["7", "7", "7", "7"], [1, 1, 1, 1]⟩
  | .MajorBlues =>
    ⟨[0, 5, 0, 0, 5, 6, 0, 9, 2, 7, 0, 7],
     ["7", "7", "7", "7", "7", "dim7", "7", "7", "m7", "7", "7", "7"],
     List.replicate 12 1⟩
  | .MinorBlues =>
    ⟨[0, 5, 0, 0, 5, 5, 0, 0, 2, 7, 0, 7],
     ["m7", "m7", "m7", "m7", "m7", "m7", "m7", "m7", "m7b5", "7alt", "m7", "7alt"],
     List.replicate 12 1⟩
  | .RhythmChanges =>
    ⟨[0, 9, 2, 7, 0, 9, 2, 7, 0, 0, 5, 6, 0, 7, 0, 7],
     ["maj7", "m7", "m7", "7", "maj7", "m7", "m7", "7",
      "maj7", "7", "maj7", "dim7", "maj7", "7", "maj7", "7"],
     List.replicate 16 (1 / 2)⟩

/-- A chord expanded from a template row. -/
structure GeneratedChord where
  name : String
  root : String
  durationBeats : ℚ
  deriving Repr

/-- `getChordsForProgression`: transpose the key root by each degree
(sharp keys prefer sharps), concatenate the suffix, and scale measures to
beats. -/
def getChordsForProgression (type : ProgressionType) (keyRoot : String) :
    List GeneratedChord :=
  let prog := PROGRESSIONS type
  (prog.degrees.zip (prog.suffixes.zip prog.measures)).map (fun p =>
    let preferFlats := !(subStrContains keyRoot "#")
    let root := transpose keyRoot p.1 preferFlats
    { name := root ++ p.2.1, root := root, durationBeats := p.2.2 * 4 })

/-- A voicing annotated with the interval map attached by the
progression engine. -/
structure VoicingM where
  name : String
  positions : List FretPosition
  intervalMap : List (String × String)
  deriving Repr, DecidableEq

/-- `getAverageFret`: mean fret of a voicing (`0` for no positions). -/
def getAverageFret (v : VoicingM) : ℚ :=
  if v.positions.length = 0 then 0
  else ((fretsOf v.positions).sum : ℚ) / (v.positions.length : ℚ)

/-- Sort positions by ascending string index (stable JS sort). -/
def sortByString (ps : List FretPosition) : List FretPosition :=
  List.insertionSort (fun a b => a.string ≤ b.string) ps

/-- `getDistance`: pair voices by ascending string index and sum absolute
fret differences; a fixed penalty of 100 when the voice counts differ. -/
def getDistance (v1 v2 : VoicingM) : ℤ :=
  let p1 := sortByString v1.positions
  let p2 := sortByString v2.positions
  if p1.length ≠ p2.length then 100
  else
    (List.range p1.length).foldl (fun dist i =>
      dist + |((p1.getD i default).fret : ℤ) - ((p2.getD i default).fret : ℤ)|) 0

/-- Candidate generation for one expanded chord (step 1 of
`generateProgressionSequence`): parse, resolve notes (with the fixed
altered-dominant substitute set), adapt the note count to the voicing
type, generate voicings, and attach the interval map. -/
def candidatesFor (voicingType : VoicingType) (stringSet : List ℕ)
    (ch : GeneratedChord) : List VoicingM :=
  match parseChord ch.name with
  | none => []
  | some parsed =>
    let notes :=
      if parsed.quality = "Altered Dominant" then
        getNotesFromIntervals parsed.root ["1P", "3M", "7m", "9m"]
      else getNotesFromIntervals parsed.root parsed.intervals
    let notes :=
      if voicingType = .Shell ∨ voicingType = .FreddieGreen then
        if parsed.quality = "Altered Dominant" then
          if notes.length ≥ 3 then [notes.getD 0 "", notes.getD 1 "", notes.getD 2 ""]
          else notes
        else
          if notes.length ≥ 4 then [notes.getD 0 "", notes.getD 1 "", notes.getD 3 ""]
          else notes
      else
        if notes.length = 5 then
          [notes.getD 0 "", notes.getD 1 "", notes.getD 3 "", notes.getD 4 ""]
        else notes
    let candidates := generateVoicings notes voicingType (some stringSet)
    let iMap := getIntervalMap parsed.root parsed.intervals
    candidates.map (fun v => { name := v.name, positions := v.positions, intervalMap := iMap })

/-- Sort candidates by distance of the mean fret from fret 5 (the fixed
home-position heuristic; stable JS sort). -/
def homeSort (cands : List VoicingM) : List VoicingM :=
  List.insertionSort (fun a b => |getAverageFret a - 5| ≤ |getAverageFret b - 5|) cands

/-- Selection of one non-first chord (step 2 loop body): minimize
distance to the previous selection when it exists, otherwise fall back to
the home-position heuristic; `none` when there are no candidates. -/
def selectNext (prev : Option VoicingM) (cands : List VoicingM) : Option VoicingM :=
  if cands.length > 0 then
    match prev with
    | some p =>
      (List.insertionSort (fun a b => getDistance p a ≤ getDistance p b) cands).head?
    | none => (homeSort cands).head?
  else none

/-- The selection loop over the remaining chords, threading the previous
selection. -/
def selectRest (prev : Option VoicingM) : List (List VoicingM) → List (Option VoicingM)
  | [] => []
  | cands :: more =>
    let s := selectNext prev cands
    s :: selectRest s more

/-- Step 2 of `generateProgressionSequence`: greedy voice-leading
selection (first chord closest to fret 5, then nearest neighbour). -/
def selectVoicings : List (List VoicingM) → List (Option VoicingM)
  | [] => []
  | c0 :: rest =>
    let first := if c0.length > 0 then (homeSort c0).head? else none
    first :: selectRest first rest

/-- The number of iterations of the JS loop
`for (let b = 0; b < duration; b++)`. -/
def beatCount (q : ℚ) : ℕ := (Int.ceil q).toNat

/-- Step 3 of `generateProgressionSequence`: a 160-slot array, each
selected voicing cloned over its chord's beat span and renamed to the
expanded chord symbol; missing selections leave their slots null. -/
def buildSeq (chData : List GeneratedChord) (sel : List (Option VoicingM)) :
    List (Option VoicingM) :=
  let filled := (sel.zip chData).flatMap (fun p =>
    List.replicate (beatCount p.2.durationBeats)
      (p.1.map (fun v => { v with name := p.2.name })))
  (filled ++ List.replicate 160 none).take 160

/-- `generateProgressionSequence(type, keyRoot, voicingType, stringSet)`. -/
def generateProgressionSequence (type : ProgressionType) (keyRoot : String)
    (voicingType : VoicingType) (stringSet : List ℕ) : List (Option VoicingM) :=
  let chData := getChordsForProgression type keyRoot
  if chData.length = 0 then []
  else
    let allCandidates := chData.map (candidatesFor voicingType stringSet)
    let selectedVoicings := selectVoicings allCandidates
    buildSeq chData selectedVoicings

/-! ## useSequencer.ts (`nextNote` step logic) -/

/-- The `lastPopulatedIndex` scan: index of the last non-null slot,
`-1` when all slots are null. -/
def lastPopulatedIndex (seq : List (Option α)) : ℤ :=
  seq.enum.foldl (fun acc p => if p.2.isSome then (p.1 : ℤ) else acc) (-1)

/-- The step-advance logic of `nextNote` (the `nextNoteTimeRef` update is
a time accumulator orthogonal to the step cursor and is not modelled):
count-in increments below 0, otherwise advance by one and wrap at the end
of the active span (the configured repeat range, or the last populated
measure rounded up to a 4-slot boundary, defaulting to 32). -/
def nextNote (seq : List (Option α)) (isRepeatMode : Bool)
    (repeatRange : Option (ℤ × ℤ)) (currentStep : ℤ) : ℤ :=
  if currentStep < 0 then
    let next := currentStep + 1
    if next = 0 ∧ isRepeatMode ∧ repeatRange.isSome then (repeatRange.getD (0, 0)).1
    else next
  else
    let lastIdx := lastPopulatedIndex seq
    let loopStart : ℤ :=
      if isRepeatMode ∧ repeatRange.isSome then (repeatRange.getD (0, 0)).1 else 0
    let loopEnd : ℤ :=
      if isRepeatMode ∧ repeatRange.isSome then (repeatRange.getD (0, 0)).2 + 1
      else if lastIdx ≠ -1 then (lastIdx / 4 + 1) * 4
      else 32
    let nextStep := currentStep + 1
    if isRepeatMode ∧ repeatRange.isSome then
      if nextStep ≥ loopEnd ∨ nextStep < loopStart then loopStart else nextStep
    else
      if nextStep ≥ loopEnd then 0 else nextStep

/-! ## rhythm-patterns.ts -/

/-- A rhythm trigger (offset and duration in fractions of a beat; the
duration is present on every trigger the code constructs). -/
structure RhythmTrigger where
  offset : ℚ
  duration : ℚ
  deriving Repr, DecidableEq

/-- The Charleston pattern from `RHYTHM_PATTERNS`. -/
def charlestonPattern : List (List RhythmTrigger) :=
  [[⟨0, 1.2⟩], [⟨0.5, 0.4⟩], [], []]

/-- `getAdaptiveTriggers(pattern, beatIndex, currentVoicing, prevVoicing)`
(voicings enter only through their `name`, so they are modelled as
optional names): pattern triggers take priority; on a rest beat a single
downbeat fill is played when there is a current chord and it differs from
the previous beat's chord. -/
def getAdaptiveTriggers (pattern : List (List RhythmTrigger)) (beatIndex : ℕ)
    (currentVoicing prevVoicing : Option String) : List RhythmTrigger :=
  let triggers := pattern.getD beatIndex []
  if triggers.length > 0 then triggers
  else
    match currentVoicing with
    | some name =>
      let isChange :=
        match prevVoicing with
        | none => true
        | some prevName => decide (name ≠ prevName)
      if isChange then [⟨0, 1.0⟩] else []
    | none => []

/-! ## persistence-utils.ts -/

/-- Untyped JSON-like values, as seen by `validateSequence`. Property
access on values without the property (including JS `undefined`) is
modelled as yielding `undefVal`. -/
inductive JValue where
  | jnull
  | undefVal
  | jbool (b : Bool)
  | num (n : ℤ)
  | str (s : String)
  | arr (items : List JValue)
  | obj (fields : List (String × JValue))

/-- JS `typeof`. -/
def jtypeof : JValue → String
  | .jnull => "object"
  | .undefVal => "undefined"
  | .jbool _ => "boolean"
  | .num _ => "number"
  | .str _ => "string"
  | .arr _ => "object"
  | .obj _ => "object"

/-- JS property read `v[k]`. -/
def getField (v : JValue) (k : String) : JValue :=
  match v with
  | .obj fields =>
    match fields.lookup k with
    | some x => x
    | none => .undefVal
  | _ => .undefVal

/-- JS `Array.isArray`. -/
def isJsArray : JValue → Bool
  | .arr _ => true
  | _ => false

/-- The per-position shape check inside `validateSequence`. -/
def validPosition (pos : JValue) : Bool :=
  (jtypeof (getField pos "string") == "number") &&
    (jtypeof (getField pos "fret") == "number") &&
    (jtypeof (getField pos "note") == "string")

/-- JS `positions.every(...)` (only reached when `positions` is an
array). -/
def positionsAll (v : JValue) (p : JValue → Bool) : Bool :=
  match v with
  | .arr items => items.all p
  | _ => true

/-- `validateSequence(data)`: an array each of whose items is null or
shaped like a voicing. -/
def validateSequence (data : JValue) : Bool :=
  match data with
  | .arr items =>
    items.all (fun item =>
      match item with
      | .jnull => true
      | _ =>
        (jtypeof item == "object") &&
          (jtypeof (getField item "name") == "string") &&
          isJsArray (getField item "positions") &&
          positionsAll (getField item "positions") validPosition)
  | _ => false

/-! ## Claim-side (specification) definitions -/

/-- Claim-side shape of a valid persisted sequence element: null, or an
object whose `name` is a string and whose `positions` is an array of
entries with numeric `string`/`fret` and string `note`. -/
def specValidItem (item : JValue) : Prop :=
  item = .jnull ∨
    ((∃ fields, item = .obj fields) ∧
      jtypeof (getField item "name") = "string" ∧
      ∃ ps, getField item "positions" = .arr ps ∧
        ∀ p ∈ ps,
          jtypeof (getField p "string") = "number" ∧
          jtypeof (getField p "fret") = "number" ∧
          jtypeof (getField p "note") = "string")

/-- Claim-side shape of a valid persisted sequence. -/
def specValidSeq (data : JValue) : Prop :=
  ∃ items, data = .arr items ∧ ∀ item ∈ items, specValidItem item

/-- Claim-side voice-leading metric: pair voices by ascending string
index and sum the absolute fret differences. -/
def pairedFretDistance (v1 v2 : VoicingM) : ℤ :=
  ((sortByString v1.positions).zip (sortByString v2.positions)).foldl
    (fun dist p => dist + |(p.1.fret : ℤ) - (p.2.fret : ℤ)|) 0

/-- Total beat span of an expanded chord list. -/
def totalBeats (chData : List GeneratedChord) : ℕ :=
  (chData.map (fun ch => beatCount ch.durationBeats)).sum

/-- Beat offset at which chord `i` of an expanded chord list starts. -/
def beatOffset (chData : List GeneratedChord) (i : ℕ) : ℕ :=
  ((chData.take i).map (fun ch => beatCount ch.durationBeats)).sum

/-! ## Helper lemmas -/

theorem jsIndexOf_neg_one_or_bounds (x : String) :
    ∀ l : List String, jsIndexOf x l = -1 ∨ (0 ≤ jsIndexOf x l ∧ jsIndexOf x l < l.length) := by
  intro l
  induction l with
  | nil => left; rfl
  | cons y ys ih =>
    by_cases h : y = x
    · right; simp [jsIndexOf, h]
    · rcases ih with h1 | h1
      · left; simp [jsIndexOf, h, h1]
      · right
        have hne : jsIndexOf x ys ≠ -1 := by omega
        simp only [jsIndexOf, h, if_false, if_neg hne, List.length_cons]
        push_cast
        omega

theorem getNoteIndex_bounds (s : String) (h : getNoteIndex s ≠ -1) :
    0 ≤ getNoteIndex s ∧ getNoteIndex s < 12 := by
  have hs := jsIndexOf_neg_one_or_bounds (String.mk (s.toList.filter (fun c => !c.isDigit))) NOTES_SHARP
  have hf := jsIndexOf_neg_one_or_bounds (String.mk (s.toList.filter (fun c => !c.isDigit))) NOTES_FLAT
  simp only [show NOTES_SHARP.length = 12 from rfl, show NOTES_FLAT.length = 12 from rfl] at hs hf
  simp only [getNoteIndex] at h ⊢
  split_ifs at h ⊢ with hcond
  · rcases hf with h2 | h2
    · exact absurd h2 h
    · exact_mod_cast h2
  · rcases hs with h2 | h2
    · exact absurd h2 hcond
    · exact_mod_cast h2

theorem noteIndex_of_table (j : Fin 12) :
    getNoteIndex (NOTES_SHARP.getD (j : ℕ) "") = (j : ℕ) ∧
    getNoteIndex (NOTES_FLAT.getD (j : ℕ) "") = (j : ℕ) := by
  fin_cases j <;> constructor <;> decide

theorem transpose_zero_pitch (root : String) (b : Bool) (h : getNoteIndex root ≠ -1) :
    getNoteIndex (transpose root 0 b) = getNoteIndex root := by
  obtain ⟨h0, h12⟩ := getNoteIndex_bounds root h
  unfold transpose
  rw [if_neg h]
  have htm : Int.tmod (getNoteIndex root + 0) 12 = getNoteIndex root := by
    rw [add_zero, Int.tmod_eq_emod h0 (by norm_num), Int.emod_eq_of_lt h0 h12]
  rw [htm]
  have hj : (getNoteIndex root).toNat < 12 := by omega
  have h2 := noteIndex_of_table ⟨(getNoteIndex root).toNat, hj⟩
  simp only [Fin.val_mk] at h2
  cases b
  · simp only [Bool.false_eq_true, if_false]
    rw [if_neg (not_lt.mpr h0), h2.1]
    exact Int.toNat_of_nonneg h0
  · simp only [if_true]
    rw [if_neg (not_lt.mpr h0), h2.2]
    exact Int.toNat_of_nonneg h0

/-! ## Claims -/

/-- C6: in non-repeat mode, for a sequence whose last non-null slot has
index `k`, the scheduler's step advance takes any step `s ≥ 0` to `s + 1`
when `s + 1 < 4 * (k / 4 + 1)` and to `0` otherwise; in particular, with
content only in slots 0–3 it wraps from 3 back to 0. -/
theorem C6_scheduler_loop_bound {α : Type} (seq : List (Option α)) (k : ℕ) (s : ℤ)
    (rr : Option (ℤ × ℤ)) (hk : lastPopulatedIndex seq = (k : ℤ)) (hs : 0 ≤ s) :
    nextNote seq false rr s = if s + 1 < 4 * ((k : ℤ) / 4 + 1) then s + 1 else 0 := by
  unfold nextNote
  rw [if_neg (by omega)]
  simp only [hk, Bool.false_eq_true, false_and, if_false]
  have hne : (k : ℤ) ≠ -1 := by omega
  rw [if_pos hne]
  split_ifs <;> omega

/-- Witness for C6 at a concrete sequence populated only in slot 0:
the step cursor wraps from 3 to 0 and advances 2 to 3. -/
theorem C6_witness :
    nextNote [some (), none, none, none] false none 3 = 0 ∧
    nextNote [some (), none, none, none] false none 2 = 3 := by
  constructor
  · rw [C6_scheduler_loop_bound [some (), none, none, none] 0 3 none (by decide) (by norm_num)]
    decide
  · rw [C6_scheduler_loop_bound [some (), none, none, none] 0 2 none (by decide) (by norm_num)]
    decide

/-- C3: round-trip spelling for `Cmaj7#4` and the `C7b9` interval map,
and augmented interval codes (ending in `A`) are always spelled from the
sharp table regardless of the computed flat preference. -/
theorem C3_roundtrip_spelling (root : String) (intervals : List String) (i : ℕ)
    (h1 : getNoteIndex root ≠ -1) (h2 : i < intervals.length)
    (h3 : endsWithA (intervals.get ⟨i, h2⟩) = true) :
    (parseChord "Cmaj7#4").map (fun c => getNotesFromIntervals c.root c.intervals)
        = some ["C", "E", "F#", "B"] ∧
    (parseChord "C7b9").map (fun c => getIntervalMap c.root c.intervals)
        = some [("C", "1"), ("E", "3"), ("G", "5"), ("Bb", "b7"), ("Db", "b9")] ∧
    (getNotesFromIntervals root intervals)[i]?
        = some (transpose root (intervalSemitones (intervals.get ⟨i, h2⟩)) false) := by
  refine ⟨by decide, by decide, ?_⟩
  simp only [getNotesFromIntervals]
  rw [if_neg h1]
  rw [List.getElem?_map, List.getElem?_eq_getElem h2]
  simp only [Option.map_some']
  rw [List.get_eq_getElem] at h3
  rw [if_pos h3]
  rfl

/-- Witness for C3 at a concrete augmented interval: `5A` over `C` is
spelled from the sharp table. -/
theorem C3_witness :
    (parseChord "Cmaj7#4").map (fun c => getNotesFromIntervals c.root c.intervals)
        = some ["C", "E", "F#", "B"] ∧
    (parseChord "C7b9").map (fun c => getIntervalMap c.root c.intervals)
        = some [("C", "1"), ("E", "3"), ("G", "5"), ("Bb", "b7"), ("Db", "b9")] ∧
    (getNotesFromIntervals "C" ["5A"])[0]?
        = some (transpose "C" (intervalSemitones "5A") false) :=
  C3_roundtrip_spelling "C" ["5A"] 0 (by decide) (by decide) (by decide)

/-- C10: `getNotesFromIntervals` is total over arbitrary interval codes;
a code outside the fixed semitone table resolves to 0 semitones, so the
returned list keeps one entry per interval and carries the root's own
pitch class at that position. -/
theorem C10_unknown_interval_code (root : String) (intervals : List String) (i : ℕ)
    (h1 : getNoteIndex root ≠ -1) (h2 : i < intervals.length)
    (h3 : intervals.get ⟨i, h2⟩ ∉ knownIntervalCodes) :
    intervalSemitones (intervals.get ⟨i, h2⟩) = 0 ∧
    (getNotesFromIntervals root intervals).length = intervals.length ∧
    ((getNotesFromIntervals root intervals)[i]?).map getNoteIndex
        = some (getNoteIndex root) := by
  simp only [knownIntervalCodes, List.mem_cons, List.mem_singleton, not_or] at h3
  obtain ⟨n1, n2, n3, n4, n5, n6, n7, n8, n9, n10, n11, n12, n13, n14, n15⟩ := h3
  have hsem : intervalSemitones (intervals.get ⟨i, h2⟩) = 0 := by
    simp only [intervalSemitones, n1, n2, n3, n4, n5, n6, n7, n8, n9, n10, n11, n12,
      n13, n14, n15, if_false]
  refine ⟨hsem, ?_, ?_⟩
  · simp only [getNotesFromIntervals]
    rw [if_neg h1]
    simp
  · simp only [getNotesFromIntervals]
    rw [if_neg h1]
    rw [List.getElem?_map, List.getElem?_eq_getElem h2]
    simp only [Option.map_some']
    rw [List.get_eq_getElem] at hsem
    rw [hsem]
    congr 1
    exact transpose_zero_pitch root _ h1

/-- Witness for C10 at the concrete unknown code `13M` over `C`. -/
theorem C10_witness :
    intervalSemitones "13M" = 0 ∧
    (getNotesFromIntervals "C" ["13M"]).length = 1 ∧
    ((getNotesFromIntervals "C" ["13M"])[0]?).map getNoteIndex
        = some (getNoteIndex "C") :=
  C10_unknown_interval_code "C" ["13M"] 0 (by decide) (by decide) (by decide)

/-- C8: with the Charleston pattern, beats whose pattern entry is
non-empty return the pattern's own triggers regardless of chord change;
on a rest beat a chord change (current chord present, previous absent or
differently named) yields exactly the downbeat fill trigger, while an
unchanged chord or an absent current chord yields no triggers. -/
theorem C8_adaptive_triggers (b : ℕ) (cur prev : Option String) :
    (charlestonPattern.getD b [] ≠ [] →
      getAdaptiveTriggers charlestonPattern b cur prev = charlestonPattern.getD b []) ∧
    (charlestonPattern.getD b [] = [] →
      (∀ c, cur = some c →
        ((prev = none ∨ ∀ pn, prev = some pn → pn ≠ c) →
          getAdaptiveTriggers charlestonPattern b cur prev = [⟨0, 1.0⟩]) ∧
        (prev = some c → getAdaptiveTriggers charlestonPattern b cur prev = [])) ∧
      (cur = none → getAdaptiveTriggers charlestonPattern b cur prev = [])) := by
  constructor
  · intro h
    unfold getAdaptiveTriggers
    rw [if_pos]
    exact List.length_pos.mpr h
  · intro h
    constructor
    · intro c hc
      subst hc
      constructor
      · intro hch
        unfold getAdaptiveTriggers
        rw [h]
        simp only [List.length_nil, gt_iff_lt, lt_self_iff_false, if_false]
        rcases hch with rfl | hall
        · rfl
        · cases prev with
          | none => rfl
          | some pn =>
            have hne : c ≠ pn := fun he => hall pn rfl (he ▸ rfl)
            simp [hne]
      · intro hp
        subst hp
        unfold getAdaptiveTriggers
        rw [h]
        simp
    · intro hc
      subst hc
      unfold getAdaptiveTriggers
      rw [h]
      simp

/-- Witness for C8: concrete rest-beat and pattern-beat evaluations. -/
theorem C8_witness :
    getAdaptiveTriggers charlestonPattern 2 (some "Cmaj7") none = [⟨0, 1.0⟩] ∧
    getAdaptiveTriggers charlestonPattern 2 (some "Cmaj7") (some "Cmaj7") = [] ∧
    getAdaptiveTriggers charlestonPattern 0 (some "Cmaj7") (some "Cmaj7")
      = charlestonPattern.getD 0 [] := by
  refine ⟨?_, ?_, ?_⟩
  · exact (((C8_adaptive_triggers 2 (some "Cmaj7") none).2 rfl).1 "Cmaj7" rfl).1 (Or.inl rfl)
  · exact (((C8_adaptive_triggers 2 (some "Cmaj7") (some "Cmaj7")).2 rfl).1 "Cmaj7" rfl).2 rfl
  · exact (C8_adaptive_triggers 0 (some "Cmaj7") (some "Cmaj7")).1 (by decide)

theorem validPosition_iff (p : JValue) :
    validPosition p = true ↔
      jtypeof (getField p "string") = "number" ∧
      jtypeof (getField p "fret") = "number" ∧
      jtypeof (getField p "note") = "string" := by
  simp [validPosition, Bool.and_eq_true, and_assoc]

theorem isArr_positions_iff (gp : JValue) :
    (isJsArray gp = true ∧ positionsAll gp validPosition = true) ↔
      ∃ ps, gp = .arr ps ∧ ∀ p ∈ ps, validPosition p = true := by
  cases gp <;> simp [isJsArray, positionsAll, List.all_eq_true]

/-- C9: `validateSequence` accepts exactly the arrays whose elements are
null or voicing-shaped objects (string `name`, array `positions` of
entries with numeric `string`/`fret` and string `note`); everything else
(non-arrays, non-array `positions`, non-string `name`, ...) is rejected. -/
theorem C9_validate_sequence (data : JValue) :
    validateSequence data = true ↔ specValidSeq data := by
  cases data with
  | arr items =>
    simp only [validateSequence, List.all_eq_true, specValidSeq]
    constructor
    · intro h
      refine ⟨items, rfl, fun item hm => ?_⟩
      have hi := h item hm
      cases item with
      | jnull => exact Or.inl rfl
      | undefVal => simp [jtypeof] at hi
      | jbool v => simp [jtypeof] at hi
      | num v => simp [jtypeof] at hi
      | str v => simp [jtypeof] at hi
      | arr xs => simp [jtypeof, getField] at hi
      | obj fields =>
        right
        simp only [jtypeof, Bool.and_eq_true, beq_iff_eq] at hi
        obtain ⟨⟨⟨-, hname⟩, harr⟩, hall⟩ := hi
        obtain ⟨ps, hps, hpp⟩ :=
          (isArr_positions_iff (getField (JValue.obj fields) "positions")).mp ⟨harr, hall⟩
        exact ⟨⟨fields, rfl⟩, hname, ps, hps,
          fun p hp => (validPosition_iff p).mp (hpp p hp)⟩
    · rintro ⟨items2, heq, hall⟩
      injection heq with heq2
      subst heq2
      intro item hm
      rcases hall item hm with rfl | ⟨⟨fields, rfl⟩, hname, ps, hps, hpp⟩
      · rfl
      · show ((jtypeof (JValue.obj fields) == "object") &&
            (jtypeof (getField (JValue.obj fields) "name") == "string") &&
            isJsArray (getField (JValue.obj fields) "positions") &&
            positionsAll (getField (JValue.obj fields) "positions") validPosition) = true
        rw [Bool.and_eq_true, Bool.and_eq_true, Bool.and_eq_true]
        refine ⟨⟨⟨rfl, ?_⟩, ?_⟩, ?_⟩
        · rw [beq_iff_eq]
          exact hname
        · rw [hps]
          rfl
        · rw [hps]
          simp only [positionsAll, List.all_eq_true]
          exact fun p hp => (validPosition_iff p).mpr (hpp p hp)
  | jnull => simp [validateSequence, specValidSeq]
  | undefVal => simp [validateSequence, specValidSeq]
  | jbool v => simp [validateSequence, specValidSeq]
  | num v => simp [validateSequence, specValidSeq]
  | str v => simp [validateSequence, specValidSeq]
  | obj fields => simp [validateSequence, specValidSeq]

theorem string_eta (s : String) : String.mk s.toList = s := rfl

theorem string_mk_append (l1 l2 : List Char) :
    String.mk l1 ++ String.mk l2 = String.mk (l1 ++ l2) := rfl

theorem toList_append (a b : String) : (a ++ b).toList = a.toList ++ b.toList :=
  String.data_append a b

theorem mem_of_lookup_isSome {α : Type} :
    ∀ (l : List (String × α)) (a : String), (List.lookup a l).isSome → a ∈ l.map Prod.fst := by
  intro l
  induction l with
  | nil => intro a h; simp [List.lookup] at h
  | cons p ps ih =>
    intro a h
    rw [show p = (p.1, p.2) from rfl, List.lookup_cons] at h
    by_cases he : a == p.1
    · simp only [List.map_cons, List.mem_cons]
      left
      exact beq_iff_eq.mp he
    · rw [Bool.not_eq_true] at he
      rw [he] at h
      simp only [List.map_cons, List.mem_cons]
      right
      exact ih a h

set_option maxHeartbeats 2000000 in
theorem chordFromSuffix_eq_lookup (root rest : String) :
    chordFromSuffix root rest
      = (lookupSuffix rest).map (fun q => ⟨root, q.1, q.2⟩) := by
  by_cases hsome : (lookupSuffix rest).isSome
  · have hmem := mem_of_lookup_isSome suffixAliasTable rest hsome
    have hkeys : suffixAliasTable.map Prod.fst = ["", "maj", "M", "m", "min", "-", "7", "dom7", "maj7", "M7", "Maj7", "maj7#4", "M7#4", "maj7(#4)", "M7(#4)", "m7", "min7", "-7", "m7b5", "m7(b5)", "min7(b5)", "min7(5b)", "ø", "ø7", "dim", "dim7", "o", "o7", "6", "maj6", "M6", "m6", "min6", "-6", "maj9", "M9", "Maj9", "9", "dom9", "7b9", "7(b9)", "dom7(b9)", "m7b9", "min7(b9)", "-7(b9)", "m9", "min9", "-9", "mmaj7", "minmaj7", "-maj7", "maj7#5", "maj7(#5)", "M7#5", "M7(#5)", "dom7#5", "dom7(#5)", "7#5", "7(#5)", "dom7#11", "7#11", "dom7(#11)", "7(#11)", "dom7sus4", "7sus4", "alt", "7alt", "dom7alt"] := by rfl
    rw [hkeys] at hmem
    simp only [List.mem_cons, List.not_mem_nil, or_false] at hmem
    rcases hmem with rfl|rfl|rfl|rfl|rfl|rfl|rfl|rfl|rfl|rfl|rfl|rfl|rfl|rfl|rfl|rfl|rfl|rfl|rfl|rfl|rfl|rfl|rfl|rfl|rfl|rfl|rfl|rfl|rfl|rfl|rfl|rfl|rfl|rfl|rfl|rfl|rfl|rfl|rfl|rfl|rfl|rfl|rfl|rfl|rfl|rfl|rfl|rfl|rfl|rfl|rfl|rfl|rfl|rfl|rfl|rfl|rfl|rfl|rfl|rfl|rfl|rfl|rfl|rfl|rfl|rfl|rfl|rfl
    all_goals rfl
  · rw [Option.not_isSome_iff_eq_none] at hsome
    rw [hsome]
    unfold chordFromSuffix
    have hn1 : ¬(rest = "" ∨ rest = "maj" ∨ rest = "M") := by
      rintro (rfl|rfl|rfl) <;> exact absurd hsome (by decide)
    have hn2 : ¬(rest = "m" ∨ rest = "min" ∨ rest = "-") := by
      rintro (rfl|rfl|rfl) <;> exact absurd hsome (by decide)
    have hn3 : ¬(rest = "7" ∨ rest = "dom7") := by
      rintro (rfl|rfl) <;> exact absurd hsome (by decide)
    have hn4 : ¬(rest = "maj7" ∨ rest = "M7" ∨ rest = "Maj7") := by
      rintro (rfl|rfl|rfl) <;> exact absurd hsome (by decide)
    have hn5 : ¬(rest = "maj7#4" ∨ rest = "M7#4" ∨ rest = "maj7(#4)" ∨ rest = "M7(#4)") := by
      rintro (rfl|rfl|rfl|rfl) <;> exact absurd hsome (by decide)
    have hn6 : ¬(rest = "m7" ∨ rest = "min7" ∨ rest = "-7") := by
      rintro (rfl|rfl|rfl) <;> exact absurd hsome (by decide)
    have hn7 : ¬(rest = "m7b5" ∨ rest = "m7(b5)" ∨ rest = "min7(b5)" ∨ rest = "min7(5b)" ∨ rest = "ø" ∨ rest = "ø7") := by
      rintro (rfl|rfl|rfl|rfl|rfl|rfl) <;> exact absurd hsome (by decide)
    have hn8 : ¬(rest = "dim" ∨ rest = "dim7" ∨ rest = "o" ∨ rest = "o7") := by
      rintro (rfl|rfl|rfl|rfl) <;> exact absurd hsome (by decide)
    have hn9 : ¬(rest = "6" ∨ rest = "maj6" ∨ rest = "M6") := by
      rintro (rfl|rfl|rfl) <;> exact absurd hsome (by decide)
    have hn10 : ¬(rest = "m6" ∨ rest = "min6" ∨ rest = "-6") := by
      rintro (rfl|rfl|rfl) <;> exact absurd hsome (by decide)
    have hn11 : ¬(rest = "maj9" ∨ rest = "M9" ∨ rest = "Maj9") := by
      rintro (rfl|rfl|rfl) <;> exact absurd hsome (by decide)
    have hn12 : ¬(rest = "9" ∨ rest = "dom9") := by
      rintro (rfl|rfl) <;> exact absurd hsome (by decide)
    have hn13 : ¬(rest = "7b9" ∨ rest = "7(b9)" ∨ rest = "dom7(b9)") := by
      rintro (rfl|rfl|rfl) <;> exact absurd hsome (by decide)
    have hn14 : ¬(rest = "m7b9" ∨ rest = "min7(b9)" ∨ rest = "-7(b9)") := by
      rintro (rfl|rfl|rfl) <;> exact absurd hsome (by decide)
    have hn15 : ¬(rest = "m9" ∨ rest = "min9" ∨ rest = "-9") := by
      rintro (rfl|rfl|rfl) <;> exact absurd hsome (by decide)
    have hn16 : ¬(rest = "mmaj7" ∨ rest = "minmaj7" ∨ rest = "-maj7") := by
      rintro (rfl|rfl|rfl) <;> exact absurd hsome (by decide)
    have hn17 : ¬(rest = "maj7#5" ∨ rest = "maj7(#5)" ∨ rest = "M7#5" ∨ rest = "M7(#5)") := by
      rintro (rfl|rfl|rfl|rfl) <;> exact absurd hsome (by decide)
    have hn18 : ¬(rest = "dom7#5" ∨ rest = "dom7(#5)" ∨ rest = "7#5" ∨ rest = "7(#5)") := by
      rintro (rfl|rfl|rfl|rfl) <;> exact absurd hsome (by decide)
    have hn19 : ¬(rest = "dom7#11" ∨ rest = "7#11" ∨ rest = "dom7(#11)" ∨ rest = "7(#11)") := by
      rintro (rfl|rfl|rfl|rfl) <;> exact absurd hsome (by decide)
    have hn20 : ¬(rest = "dom7sus4" ∨ rest = "7sus4") := by
      rintro (rfl|rfl) <;> exact absurd hsome (by decide)
    have hn21 : ¬(rest = "alt" ∨ rest = "7alt" ∨ rest = "dom7alt") := by
      rintro (rfl|rfl|rfl) <;> exact absurd hsome (by decide)
    rw [if_neg hn1, if_neg hn2, if_neg hn3, if_neg hn4, if_neg hn5, if_neg hn6, if_neg hn7, if_neg hn8, if_neg hn9, if_neg hn10, if_neg hn11, if_neg hn12, if_neg hn13, if_neg hn14, if_neg hn15, if_neg hn16, if_neg hn17, if_neg hn18, if_neg hn19, if_neg hn20, if_neg hn21]
    rfl

theorem lookupSuffix_no_accidental_start (rest : String) (h : (lookupSuffix rest).isSome)
    (c : Char) (cs : List Char) (hc : rest.toList = c :: cs) : c ≠ '#' ∧ c ≠ 'b' := by
  have hmem := mem_of_lookup_isSome suffixAliasTable rest h
  have htbl : (suffixAliasTable.map Prod.fst).all
      (fun r => match r.toList with
        | [] => true
        | c :: _ => decide (c ≠ '#') && decide (c ≠ 'b')) = true := by decide
  rw [List.all_eq_true] at htbl
  have h2 := htbl rest hmem
  rw [hc] at h2
  simp only [Bool.and_eq_true, decide_eq_true_eq] at h2
  exact h2


theorem isRootToken_single (c : Char) (h : 'A' ≤ c ∧ c ≤ 'G') :
    isRootToken (String.mk [c]) = true := by
  show (decide ('A' ≤ c) && decide (c ≤ 'G')) = true
  simp only [Bool.and_eq_true, decide_eq_true_eq]
  exact h

theorem isRootToken_pair (c d : Char) (h : 'A' ≤ c ∧ c ≤ 'G') (hd : d = '#' ∨ d = 'b') :
    isRootToken (String.mk [c, d]) = true := by
  show (decide ('A' ≤ c) && decide (c ≤ 'G') && (decide (d = '#') || decide (d = 'b'))) = true
  simp only [Bool.and_eq_true, Bool.or_eq_true, decide_eq_true_eq]
  exact ⟨h, hd⟩

theorem isRootToken_first_letter (root : String) (h : isRootToken root = true) :
    ∃ c0 cs0, root.toList = c0 :: cs0 ∧ 'A' ≤ c0 ∧ c0 ≤ 'G' ∧
      (cs0 = [] ∨ ∃ d0, cs0 = [d0] ∧ (d0 = '#' ∨ d0 = 'b')) := by
  unfold isRootToken at h
  rcases hr : root.toList with _ | ⟨c0, cs0⟩
  · rw [hr] at h; exact Bool.noConfusion h
  · rcases cs0 with _ | ⟨d0, cs0b⟩
    · rw [hr] at h
      simp only [Bool.and_eq_true, decide_eq_true_eq] at h
      exact ⟨c0, [], rfl, h.1, h.2, Or.inl rfl⟩
    · rcases cs0b with _ | ⟨e0, cs0c⟩
      · rw [hr] at h
        simp only [Bool.and_eq_true, Bool.or_eq_true, decide_eq_true_eq] at h
        exact ⟨c0, [d0], rfl, h.1.1, h.1.2, Or.inr ⟨d0, rfl, h.2⟩⟩
      · rw [hr] at h; exact Bool.noConfusion h

/-- C7: `parseChord` is total and returns the `null` sentinel exactly when
the symbol does not decompose into a root token (`A`–`G` with an optional
accidental) followed by a suffix from the fixed quality table; on success
it returns the root substring verbatim together with the table's quality
label and interval list. -/
theorem C7_parse_chord (s : String) :
    (parseChord s = none ↔
      ¬ ∃ root rest, s = root ++ rest ∧ isRootToken root = true ∧
        (lookupSuffix rest).isSome = true) ∧
    (∀ comps, parseChord s = some comps →
      ∃ rest, s = comps.root ++ rest ∧ isRootToken comps.root = true ∧
        lookupSuffix rest = some (comps.quality, comps.intervals)) := by
  rcases hs : s.toList with _ | ⟨c, cs⟩
  · have hse : s = "" := by rw [← string_eta s, hs]
    subst hse
    constructor
    · constructor
      · intro _
        rintro ⟨root, rest, heq, hrt, -⟩
        obtain ⟨c0, cs0, hr0, -⟩ := isRootToken_first_letter root hrt
        have hl := congrArg String.toList heq
        rw [toList_append, hr0] at hl
        simp at hl
      · intro _; rfl
    · intro comps hc
      simp [parseChord] at hc
  · have hse : s = String.mk (c :: cs) := by rw [← string_eta s, hs]
    subst hse
    by_cases hroot : 'A' ≤ c ∧ c ≤ 'G'
    · rcases cs with _ | ⟨d, cs2⟩
      · -- single character symbol, suffix ""
        have hps : parseChord (String.mk [c])
            = some ⟨String.mk [c], "Major", ["1P", "3M", "5P"]⟩ := by
          show (if 'A' ≤ c ∧ c ≤ 'G' then chordFromSuffix (String.mk [c]) "" else none)
            = some ⟨String.mk [c], "Major", ["1P", "3M", "5P"]⟩
          rw [if_pos hroot]
          rfl
        constructor
        · rw [hps]
          constructor
          · intro h; exact absurd h (by simp)
          · intro hno
            exfalso
            exact hno ⟨String.mk [c], "", rfl, isRootToken_single c hroot, by decide⟩
        · intro comps hc
          rw [hps] at hc
          injection hc with hc2
          subst hc2
          exact ⟨"", rfl, isRootToken_single c hroot, rfl⟩
      · by_cases hacc : d = '#' ∨ d = 'b'
        · -- greedy two-character root
          have hps : parseChord (String.mk (c :: d :: cs2))
              = (lookupSuffix (String.mk cs2)).map
                  (fun q => ⟨String.mk [c, d], q.1, q.2⟩) := by
            show (if 'A' ≤ c ∧ c ≤ 'G' then
                (if d = '#' ∨ d = 'b' then chordFromSuffix (String.mk [c, d]) (String.mk cs2)
                 else chordFromSuffix (String.mk [c]) (String.mk (d :: cs2)))
              else none)
              = (lookupSuffix (String.mk cs2)).map (fun q => ⟨String.mk [c, d], q.1, q.2⟩)
            rw [if_pos hroot, if_pos hacc, chordFromSuffix_eq_lookup]
          cases hlk : lookupSuffix (String.mk cs2) with
          | some q =>
            rw [hlk] at hps
            simp only [Option.map_some'] at hps
            constructor
            · rw [hps]
              constructor
              · intro h; exact absurd h (by simp)
              · intro hno
                exfalso
                refine hno ⟨String.mk [c, d], String.mk cs2, rfl, isRootToken_pair c d hroot hacc, ?_⟩
                rw [hlk]; rfl
            · intro comps hc
              rw [hps] at hc
              injection hc with hc2
              subst hc2
              exact ⟨String.mk cs2, rfl, isRootToken_pair c d hroot hacc, by rw [hlk]⟩
          | none =>
            rw [hlk] at hps
            simp only [Option.map_none'] at hps
            constructor
            · rw [hps]
              constructor
              · intro _
                rintro ⟨root, rest, heq, hrt, hsf⟩
                obtain ⟨c0, cs0, hr0, -, -, hshape⟩ := isRootToken_first_letter root hrt
                have hl := congrArg String.toList heq
                rw [toList_append, hs, hr0] at hl
                rcases hshape with rfl | ⟨d0, rfl, hd0⟩
                · -- one-char split: the rest starts with the accidental, impossible
                  simp only [List.cons_append, List.nil_append] at hl
                  injection hl with h1 h2
                  have hne := lookupSuffix_no_accidental_start rest hsf d cs2 h2.symm
                  rcases hacc with rfl | rfl
                  · exact hne.1 rfl
                  · exact hne.2 rfl
                · -- two-char split: forces the suffix the chain already rejected
                  simp only [List.cons_append, List.nil_append] at hl
                  injection hl with h1 hl2
                  injection hl2 with h2 h3
                  have hrest : rest = String.mk cs2 := by rw [← string_eta rest, ← h3]
                  rw [hrest, hlk] at hsf
                  simp at hsf
              · intro _; rfl
            · intro comps hc
              rw [hps] at hc
              exact absurd hc (by simp)
        · -- one-character root, suffix starts at the second character
          have hps : parseChord (String.mk (c :: d :: cs2))
              = (lookupSuffix (String.mk (d :: cs2))).map
                  (fun q => ⟨String.mk [c], q.1, q.2⟩) := by
            show (if 'A' ≤ c ∧ c ≤ 'G' then
                (if d = '#' ∨ d = 'b' then chordFromSuffix (String.mk [c, d]) (String.mk cs2)
                 else chordFromSuffix (String.mk [c]) (String.mk (d :: cs2)))
              else none)
              = (lookupSuffix (String.mk (d :: cs2))).map (fun q => ⟨String.mk [c], q.1, q.2⟩)
            rw [if_pos hroot, if_neg hacc, chordFromSuffix_eq_lookup]
          cases hlk : lookupSuffix (String.mk (d :: cs2)) with
          | some q =>
            rw [hlk] at hps
            simp only [Option.map_some'] at hps
            constructor
            · rw [hps]
              constructor
              · intro h; exact absurd h (by simp)
              · intro hno
                exfalso
                refine hno ⟨String.mk [c], String.mk (d :: cs2), rfl, isRootToken_single c hroot, ?_⟩
                rw [hlk]; rfl
            · intro comps hc
              rw [hps] at hc
              injection hc with hc2
              subst hc2
              exact ⟨String.mk (d :: cs2), rfl, isRootToken_single c hroot, by rw [hlk]⟩
          | none =>
            rw [hlk] at hps
            simp only [Option.map_none'] at hps
            constructor
            · rw [hps]
              constructor
              · intro _
                rintro ⟨root, rest, heq, hrt, hsf⟩
                obtain ⟨c0, cs0, hr0, -, -, hshape⟩ := isRootToken_first_letter root hrt
                have hl := congrArg String.toList heq
                rw [toList_append, hs, hr0] at hl
                rcases hshape with rfl | ⟨d0, rfl, hd0⟩
                · simp only [List.cons_append, List.nil_append] at hl
                  injection hl with h1 h2
                  have hrest : rest = String.mk (d :: cs2) := by rw [← string_eta rest, ← h2]
                  rw [hrest, hlk] at hsf
                  simp at hsf
                · simp only [List.cons_append, List.nil_append] at hl
                  injection hl with h1 hl2
                  injection hl2 with h2 h3
                  subst h2
                  exact hacc hd0
              · intro _; rfl
            · intro comps hc
              rw [hps] at hc
              exact absurd hc (by simp)
    · -- the leading character is not a root letter
      have hps : parseChord (String.mk (c :: cs)) = none := by
        show (if 'A' ≤ c ∧ c ≤ 'G' then
            (match cs with
             | [] => chordFromSuffix (String.mk [c]) ""
             | d :: cs2 =>
               if d = '#' ∨ d = 'b' then chordFromSuffix (String.mk [c, d]) (String.mk cs2)
               else chordFromSuffix (String.mk [c]) (String.mk cs)) else none) = none
        rw [if_neg hroot]
      constructor
      · rw [hps]
        constructor
        · intro _
          rintro ⟨root, rest, heq, hrt, -⟩
          obtain ⟨c0, cs0, hr0, hA, hG, -⟩ := isRootToken_first_letter root hrt
          have hl := congrArg String.toList heq
          rw [toList_append, hs, hr0] at hl
          simp only [List.cons_append] at hl
          injection hl with h1 h2
          exact hroot ⟨h1 ▸ hA, h1 ▸ hG⟩
        · intro _; rfl
      · intro comps hc
        rw [hps] at hc
        exact absurd hc (by simp)

/-- Witness for C7: the recognized symbol `Bbm7b5` splits greedily into
root `Bb` and table suffix `m7b5`, and the unrecognized `Cxyz` fails. -/
theorem C7_witness :
    (∃ rest, "Bbm7b5" = (ChordComponents.root ⟨"Bb", "Half Diminished", ["1P", "3m", "5d", "7m"]⟩) ++ rest ∧
      isRootToken "Bb" = true ∧
      lookupSuffix rest = some ("Half Diminished", ["1P", "3m", "5d", "7m"])) ∧
    parseChord "Cxyz" = none := by
  constructor
  · exact (C7_parse_chord "Bbm7b5").2 ⟨"Bb", "Half Diminished", ["1P", "3m", "5d", "7m"]⟩ (by decide)
  · rw [(C7_parse_chord "Cxyz").1]
    rintro ⟨root, rest, heq, hrt, hsf⟩
    obtain ⟨c0, cs0, hr0, -, -, hshape⟩ := isRootToken_first_letter root hrt
    have hl := congrArg String.toList heq
    rw [toList_append, hr0] at hl
    rcases hshape with rfl | ⟨d0, rfl, hd0⟩
    · simp only [List.cons_append, List.nil_append] at hl
      injection hl with h1 h2
      have hrest : rest = "xyz" := by
        rw [← string_eta rest, ← h2]
      rw [hrest] at hsf
      exact absurd hsf (by decide)
    · simp only [List.cons_append, List.nil_append] at hl
      injection hl with h1 hl2
      injection hl2 with h2 h3
      subst h2
      rcases hd0 with h | h <;> simp at h

theorem head_insertionSort_min {α : Type} (r : α → α → Prop) [DecidableRel r]
    (htot : ∀ a b, r a b ∨ r b a) (htrans : ∀ a b c, r a b → r b c → r a c)
    (l : List α) (x : α) (h : (List.insertionSort r l).head? = some x) :
    x ∈ l ∧ ∀ c ∈ l, r x c := by
  haveI : IsTotal α r := ⟨htot⟩
  haveI : IsTrans α r := ⟨fun a b c => htrans a b c⟩
  have hperm := List.perm_insertionSort r l
  have hsorted := List.sorted_insertionSort r l
  cases hsort : List.insertionSort r l with
  | nil => rw [hsort] at h; simp at h
  | cons y ys =>
    rw [hsort] at h hperm hsorted
    simp only [List.head?_cons, Option.some.injEq] at h
    subst h
    refine ⟨hperm.mem_iff.mp (List.mem_cons_self _ _), fun c hc => ?_⟩
    rcases List.mem_cons.mp (hperm.mem_iff.mpr hc) with rfl | hmem
    · rcases htot c c with h1 | h1 <;> exact h1
    · exact List.rel_of_sorted_cons hsorted c hmem

theorem homeSort_head_min (cands : List VoicingM) (v : VoicingM)
    (h : (homeSort cands).head? = some v) :
    v ∈ cands ∧ ∀ c ∈ cands, |getAverageFret v - 5| ≤ |getAverageFret c - 5| := by
  unfold homeSort at h
  exact head_insertionSort_min
    (fun a b => |getAverageFret a - 5| ≤ |getAverageFret b - 5|)
    (fun a b => le_total _ _) (fun a b c h1 h2 => le_trans h1 h2) cands v h

theorem selectNext_some_prev (p : VoicingM) (cands : List VoicingM) (v : VoicingM)
    (h : selectNext (some p) cands = some v) :
    v ∈ cands ∧ ∀ c ∈ cands, getDistance p v ≤ getDistance p c := by
  unfold selectNext at h
  split_ifs at h with hl
  exact head_insertionSort_min
    (fun a b => getDistance p a ≤ getDistance p b)
    (fun a b => le_total _ _) (fun a b c h1 h2 => le_trans h1 h2) cands v h

theorem selectRest_length (prev : Option VoicingM) :
    ∀ cs : List (List VoicingM), (selectRest prev cs).length = cs.length := by
  intro cs
  induction cs generalizing prev with
  | nil => rfl
  | cons c more ih => simp only [selectRest, List.length_cons, ih]

theorem selectVoicings_length (cands : List (List VoicingM)) :
    (selectVoicings cands).length = cands.length := by
  cases cands with
  | nil => rfl
  | cons c0 rest => simp only [selectVoicings, List.length_cons, selectRest_length]

theorem selectRest_getElem_succ :
    ∀ (cs : List (List VoicingM)) (prev : Option VoicingM) (j : ℕ),
      j + 1 < cs.length → ∀ p, (selectRest prev cs)[j]? = some p →
      (selectRest prev cs)[j + 1]? = some (selectNext p (cs.getD (j + 1) [])) := by
  intro cs
  induction cs with
  | nil => intro prev j hj; simp at hj
  | cons c more ih =>
    intro prev j hj p hp
    simp only [selectRest] at hp ⊢
    cases j with
    | zero =>
      simp only [List.getElem?_cons_zero, Option.some.injEq] at hp
      subst hp
      cases more with
      | nil => simp at hj
      | cons m0 more2 =>
        simp only [List.getElem?_cons_succ, selectRest, List.getElem?_cons_zero]
        rfl
    | succ k =>
      simp only [List.getElem?_cons_succ] at hp ⊢
      have := ih (selectNext prev c) k (by simpa using hj) p hp
      simpa using this

/-- C4: in `generateProgressionSequence`'s greedy selection, the first
chord's voicing minimizes the distance of its mean fret from fret 5 among
its candidates, every subsequent voicing whose previous selection exists
minimizes `getDistance` to that selection, and `getDistance` pairs voices
by ascending string index (summing absolute fret differences) with the
fixed penalty 100 when the voice counts differ. -/
theorem C4_voice_leading_selection (allCandidates : List (List VoicingM)) :
    (∀ c0 rest v, allCandidates = c0 :: rest →
      (selectVoicings allCandidates)[0]? = some (some v) →
      v ∈ c0 ∧ ∀ c ∈ c0, |getAverageFret v - 5| ≤ |getAverageFret c - 5|) ∧
    (∀ i p v, (selectVoicings allCandidates)[i]? = some (some p) →
      (selectVoicings allCandidates)[i + 1]? = some (some v) →
      v ∈ allCandidates.getD (i + 1) [] ∧
        ∀ c ∈ allCandidates.getD (i + 1) [], getDistance p v ≤ getDistance p c) ∧
    (∀ v1 v2, (v1.positions.length ≠ v2.positions.length → getDistance v1 v2 = 100) ∧
      (v1.positions.length = v2.positions.length →
        getDistance v1 v2 = pairedFretDistance v1 v2)) := by
  refine ⟨?_, ?_, ?_⟩
  · rintro c0 rest v rfl h0
    simp only [selectVoicings] at h0
    split_ifs at h0 with hl
    · simp only [List.getElem?_cons_zero, Option.some.injEq] at h0
      exact homeSort_head_min c0 v h0
    · simp only [List.getElem?_cons_zero, Option.some.injEq] at h0
      exact absurd h0 (by simp)
  · intro i p v hp hv
    cases allCandidates with
    | nil =>
      rw [show selectVoicings [] = [] from rfl] at hp
      simp at hp
    | cons c0 rest =>
      simp only [selectVoicings] at hp hv
      cases i with
      | zero =>
        simp only [List.getElem?_cons_zero, Option.some.injEq] at hp
        simp only [List.getElem?_cons_succ] at hv
        cases rest with
        | nil => simp [selectRest] at hv
        | cons c1 more =>
          simp only [selectRest, List.getElem?_cons_zero, Option.some.injEq] at hv
          rw [hp] at hv
          have := selectNext_some_prev p c1 v hv
          simpa using this
      | succ j =>
        simp only [List.getElem?_cons_succ] at hp hv
        have hlen : j + 1 < rest.length := by
          have := List.getElem?_eq_some.mp hv
          obtain ⟨hb, -⟩ := this
          rwa [selectRest_length] at hb
        have hstep := selectRest_getElem_succ rest _ j hlen (some p) hp
        rw [hstep] at hv
        simp only [Option.some.injEq] at hv
        have := selectNext_some_prev p (rest.getD (j + 1) []) v hv
        simpa using this
  · intro v1 v2
    constructor
    · intro hne
      unfold getDistance
      rw [if_pos]
      simp only [sortByString, List.length_insertionSort]
      exact hne
    · intro heq
      unfold getDistance pairedFretDistance
      rw [if_neg]
      · have hl : (sortByString v1.positions).length = (sortByString v2.positions).length := by
          simp only [sortByString, List.length_insertionSort, heq]
        generalize sortByString v1.positions = p1 at *
        generalize sortByString v2.positions = p2 at *
        have key : ∀ (l1 l2 : List FretPosition), l1.length = l2.length →
            (List.range l1.length).foldl (fun dist i =>
              dist + |((l1.getD i default).fret : ℤ) - ((l2.getD i default).fret : ℤ)|) 0
            = (l1.zip l2).foldl (fun dist pq =>
              dist + |(pq.1.fret : ℤ) - (pq.2.fret : ℤ)|) 0 := by
          have foldl_add : ∀ {β : Type} (l : List β) (g : β → ℤ) (a : ℤ),
              l.foldl (fun d i => d + g i) a = a + (l.map g).sum := by
            intro β l
            induction l with
            | nil => intro g a; simp
            | cons x xs ih =>
              intro g a
              simp only [List.foldl_cons, List.map_cons, List.sum_cons, ih]
              ring
          intro l1 l2 hlen
          rw [foldl_add, foldl_add, zero_add, zero_add]
          congr 1
          apply List.ext_get
          · simp [hlen, List.length_zip]
          · intro n h1 h2
            simp only [List.length_map, List.length_range] at h1
            simp only [List.get_eq_getElem, List.getElem_map, List.getElem_range,
              List.getElem_zip]
            rw [List.getD_eq_getElem l1 default h1, List.getD_eq_getElem l2 default (by omega)]
        exact key _ _ hl
      · simp only [sortByString, List.length_insertionSort]
        omega

/-- Witness for C4 at concrete singleton candidate lists: the selected
pair is the sorted heads, distance minimality holds, and the metric
equals the paired fret distance for equal voice counts. -/
theorem C4_witness :
    ((VoicingM.mk "a" [⟨2, 3, "C"⟩, ⟨3, 5, "C"⟩] []) ∈
        [VoicingM.mk "a" [⟨2, 3, "C"⟩, ⟨3, 5, "C"⟩] []] ∧
      ∀ c ∈ [VoicingM.mk "a" [⟨2, 3, "C"⟩, ⟨3, 5, "C"⟩] []],
        |getAverageFret (VoicingM.mk "a" [⟨2, 3, "C"⟩, ⟨3, 5, "C"⟩] []) - 5| ≤
          |getAverageFret c - 5|) ∧
    ((VoicingM.mk "b" [⟨2, 4, "D"⟩, ⟨3, 6, "D"⟩] []) ∈
        [VoicingM.mk "b" [⟨2, 4, "D"⟩, ⟨3, 6, "D"⟩] []] ∧
      ∀ c ∈ [VoicingM.mk "b" [⟨2, 4, "D"⟩, ⟨3, 6, "D"⟩] []],
        getDistance (VoicingM.mk "a" [⟨2, 3, "C"⟩, ⟨3, 5, "C"⟩] [])
            (VoicingM.mk "b" [⟨2, 4, "D"⟩, ⟨3, 6, "D"⟩] []) ≤
          getDistance (VoicingM.mk "a" [⟨2, 3, "C"⟩, ⟨3, 5, "C"⟩] []) c) ∧
    getDistance (VoicingM.mk "a" [⟨2, 3, "C"⟩, ⟨3, 5, "C"⟩] [])
        (VoicingM.mk "b" [⟨2, 4, "D"⟩, ⟨3, 6, "D"⟩] [])
      = pairedFretDistance (VoicingM.mk "a" [⟨2, 3, "C"⟩, ⟨3, 5, "C"⟩] [])
          (VoicingM.mk "b" [⟨2, 4, "D"⟩, ⟨3, 6, "D"⟩] []) := by
  refine ⟨?_, ?_, ?_⟩
  · exact (C4_voice_leading_selection
      [[VoicingM.mk "a" [⟨2, 3, "C"⟩, ⟨3, 5, "C"⟩] []],
       [VoicingM.mk "b" [⟨2, 4, "D"⟩, ⟨3, 6, "D"⟩] []]]).1
      [VoicingM.mk "a" [⟨2, 3, "C"⟩, ⟨3, 5, "C"⟩] []]
      [[VoicingM.mk "b" [⟨2, 4, "D"⟩, ⟨3, 6, "D"⟩] []]]
      (VoicingM.mk "a" [⟨2, 3, "C"⟩, ⟨3, 5, "C"⟩] []) rfl rfl
  · exact (C4_voice_leading_selection
      [[VoicingM.mk "a" [⟨2, 3, "C"⟩, ⟨3, 5, "C"⟩] []],
       [VoicingM.mk "b" [⟨2, 4, "D"⟩, ⟨3, 6, "D"⟩] []]]).2.1 0
      (VoicingM.mk "a" [⟨2, 3, "C"⟩, ⟨3, 5, "C"⟩] [])
      (VoicingM.mk "b" [⟨2, 4, "D"⟩, ⟨3, 6, "D"⟩] []) rfl rfl
  · exact ((C4_voice_leading_selection []).2.2
      (VoicingM.mk "a" [⟨2, 3, "C"⟩, ⟨3, 5, "C"⟩] [])
      (VoicingM.mk "b" [⟨2, 4, "D"⟩, ⟨3, 6, "D"⟩] [])).2 rfl

theorem mem_cartesian_aux :
    ∀ (arrays : List (List FretPosition)) (acc : List (List FretPosition))
      (combo : List FretPosition),
      combo ∈ arrays.foldl (fun a b => a.flatMap (fun d => b.map (fun e => d ++ [e]))) acc →
      ∃ d ∈ acc, ∃ es, combo = d ++ es ∧
        List.Forall₂ (fun (p : FretPosition) (l : List FretPosition) => p ∈ l) es arrays := by
  intro arrays
  induction arrays with
  | nil =>
    intro acc combo h
    exact ⟨combo, h, [], by simp, List.Forall₂.nil⟩
  | cons b rest ih =>
    intro acc combo h
    rw [List.foldl_cons] at h
    obtain ⟨d', hd', es, heq, hf⟩ := ih _ combo h
    rw [List.mem_flatMap] at hd'
    obtain ⟨d, hd, hmem⟩ := hd'
    rw [List.mem_map] at hmem
    obtain ⟨e, he, rfl⟩ := hmem
    exact ⟨d, hd, e :: es, by simp [heq], List.Forall₂.cons he hf⟩

theorem mem_cartesian (arrays : List (List FretPosition)) (combo : List FretPosition)
    (h : combo ∈ cartesian arrays) :
    List.Forall₂ (fun p l => p ∈ l) combo arrays := by
  obtain ⟨d, hd, es, heq, hf⟩ := mem_cartesian_aux arrays [[]] combo h
  rw [List.mem_singleton] at hd
  subst hd
  simp only [List.nil_append] at heq
  subst heq
  exact hf

theorem mem_stringPositions (s : ℕ) (target : String) (maxFret : ℕ) (p : FretPosition)
    (h : p ∈ stringPositions s target maxFret) :
    p.string = s ∧ 1 ≤ p.fret ∧ p.fret ≤ maxFret ∧ p.note = target ∧
      isSameNote (getNoteAtFret s p.fret) target = true := by
  unfold stringPositions at h
  rw [List.mem_filterMap] at h
  obtain ⟨f, hf, hp⟩ := h
  rw [List.mem_range'] at hf
  obtain ⟨i, hi, rfl⟩ := hf
  split_ifs at hp with hsame
  simp only [Option.some.injEq] at hp
  subst hp
  refine ⟨rfl, ?_, ?_, rfl, ?_⟩
  · show 1 ≤ 1 + 1 * i
    omega
  · show 1 + 1 * i ≤ maxFret
    omega
  · simpa using hsame

theorem fretSearch_spec (targetNotes : List String) (stringSet : List ℕ)
    (n maxFret limit : ℕ) (combo : List FretPosition)
    (h : fretSearch targetNotes stringSet n maxFret limit = some combo) :
    combo.length = n ∧ spanOf combo ≤ limit ∧
      ∀ i (hi : i < n) (hci : i < combo.length),
        combo.get ⟨i, hci⟩ ∈
          stringPositions (stringSet.getD i 0) (targetNotes.getD i "") maxFret := by
  simp only [fretSearch] at h
  obtain ⟨hmem, -⟩ := head_insertionSort_min
    (fun a b => listMin (fretsOf a) ≤ listMin (fretsOf b))
    (fun a b => le_total _ _) (fun a b c h1 h2 => le_trans h1 h2) _ combo h
  rw [List.mem_filter] at hmem
  obtain ⟨hcart, hspan⟩ := hmem
  have hf := mem_cartesian _ _ hcart
  rw [List.forall₂_iff_get] at hf
  obtain ⟨hlen, hget⟩ := hf
  refine ⟨by simpa using hlen, by simpa using hspan, ?_⟩
  intro i hi hci
  have := hget i hci (by simpa using hi)
  simpa using this

theorem mem_fold_runAttempt (n maxFret limit : ℕ) (stringSet : List ℕ) :
    ∀ (atts : List (List String × String)) (init : List Voicing) (v : Voicing),
      v ∈ atts.foldl (runAttempt n maxFret limit stringSet) init →
      v ∈ init ∨ ∃ att ∈ atts, ∃ combo,
        fretSearch att.1 stringSet n maxFret limit = some combo ∧ v = ⟨att.2, combo⟩ := by
  intro atts
  induction atts with
  | nil => intro init v h; exact Or.inl h
  | cons a rest ih =>
    intro init v h
    rw [List.foldl_cons] at h
    rcases ih _ v h with hin | ⟨att, hmem, combo, hfs, hv⟩
    · unfold runAttempt at hin
      cases hfs : fretSearch a.1 stringSet n maxFret limit with
      | none => rw [hfs] at hin; exact Or.inl hin
      | some combo =>
        rw [hfs] at hin
        simp only [pushVoicing] at hin
        split_ifs at hin with hdup
        · exact Or.inl hin
        · rcases List.mem_append.mp hin with h2 | h2
          · exact Or.inl h2
          · rw [List.mem_singleton] at h2
            exact Or.inr ⟨a, List.mem_cons_self _ _, combo, hfs, h2⟩
    · exact Or.inr ⟨att, List.mem_cons_of_mem _ hmem, combo, hfs, hv⟩

theorem mem_fold_shell :
    ∀ (atts : List (List String × String × List ℕ)) (init : List Voicing) (v : Voicing),
      v ∈ atts.foldl runShellAttempt init →
      v ∈ init ∨ ∃ att ∈ atts, ∃ combo,
        fretSearch att.1 att.2.2 3 16 4 = some combo ∧ v = ⟨att.2.1, combo⟩ := by
  intro atts
  induction atts with
  | nil => intro init v h; exact Or.inl h
  | cons a rest ih =>
    intro init v h
    rw [List.foldl_cons] at h
    rcases ih _ v h with hin | ⟨att, hmem, combo, hfs, hv⟩
    · unfold runShellAttempt at hin
      cases hfs : fretSearch a.1 a.2.2 3 16 4 with
      | none => rw [hfs] at hin; exact Or.inl hin
      | some combo =>
        rw [hfs] at hin
        simp only [pushVoicing] at hin
        split_ifs at hin with hdup
        · exact Or.inl hin
        · rcases List.mem_append.mp hin with h2 | h2
          · exact Or.inl h2
          · rw [List.mem_singleton] at h2
            exact Or.inr ⟨a, List.mem_cons_self _ _, combo, hfs, h2⟩
    · exact Or.inr ⟨att, List.mem_cons_of_mem _ hmem, combo, hfs, hv⟩

theorem exists_four (l : List String) (h : l.length = 4) :
    ∃ a b c d, l = [a, b, c, d] := by
  rcases l with _ | ⟨a, _ | ⟨b, _ | ⟨c, _ | ⟨d, _ | ⟨e, tl⟩⟩⟩⟩⟩
  · simp at h
  · simp at h
  · simp at h
  · simp at h
  · exact ⟨a, b, c, d, rfl⟩
  · simp at h

theorem exists_three (l : List String) (h : l.length = 3) :
    ∃ a b c, l = [a, b, c] := by
  rcases l with _ | ⟨a, _ | ⟨b, _ | ⟨c, _ | ⟨d, tl⟩⟩⟩⟩
  · simp at h
  · simp at h
  · simp at h
  · exact ⟨a, b, c, rfl⟩
  · simp at h

theorem rotationsOf_perm (base : List String) (h : base.length = 4) :
    ∀ inv ∈ rotationsOf base, inv.length = 4 ∧ inv.Perm base := by
  obtain ⟨a, b, c, d, rfl⟩ := exists_four base h
  intro inv hinv
  simp only [rotationsOf, List.getD_cons_zero, List.getD_cons_succ,
    List.mem_cons, List.not_mem_nil, or_false] at hinv
  rcases hinv with rfl | rfl | rfl | rfl
  · exact ⟨rfl, List.Perm.refl _⟩
  · exact ⟨rfl, @List.perm_append_comm _ [b, c, d] [a]⟩
  · exact ⟨rfl, @List.perm_append_comm _ [c, d] [a, b]⟩
  · exact ⟨rfl, @List.perm_append_comm _ [d] [a, b, c]⟩

theorem dropRemap_perm (type : VoicingType) (inv : List String) (h : inv.length = 4) :
    (dropRemap type inv).length = 4 ∧ (dropRemap type inv).Perm inv := by
  obtain ⟨a, b, c, d, rfl⟩ := exists_four inv h
  cases type
  · exact ⟨rfl, List.Perm.append_right [d] (@List.perm_append_comm _ [c] [a, b])⟩
  · exact ⟨rfl, List.Perm.swap a b [c, d]⟩
  · exact ⟨rfl, List.Perm.cons a (List.Perm.swap b c [d])⟩
  · exact ⟨rfl, List.Perm.cons a (List.Perm.swap b c [d])⟩
  · exact ⟨rfl, List.Perm.cons a (List.Perm.swap b c [d])⟩

theorem dropAttempts_spec (type : VoicingType) (notes : List String) (h : notes.length = 4) :
    ∀ att ∈ dropAttempts type notes, att.1.length = 4 ∧ att.1.Perm notes := by
  intro att hatt
  unfold dropAttempts at hatt
  have hsp : (List.insertionSort (fun a b => getNoteIndex a ≤ getNoteIndex b) notes).Perm notes :=
    List.perm_insertionSort _ _
  have hsl : (List.insertionSort (fun a b => getNoteIndex a ≤ getNoteIndex b) notes).length = 4 := by
    rw [List.length_insertionSort]; exact h
  have hrot_prim := rotationsOf_perm _ hsl
  have hrot_inp := rotationsOf_perm _ h
  rcases List.mem_append.mp hatt with hatt | hD
  rcases List.mem_append.mp hatt with hatt | hC
  rcases List.mem_append.mp hatt with hA | hB
  · -- primary drop attempts
    rw [List.mem_map] at hA
    obtain ⟨p, hp, rfl⟩ := hA
    have hp1 := (List.of_mem_zip hp).1
    have hidx : p.1 < 4 := by
      cases type <;> simp only [dropOrder] at hp1 <;>
        simp only [List.mem_cons, List.not_mem_nil, or_false] at hp1 <;> omega
    have hrl : (rotationsOf (List.insertionSort (fun a b => getNoteIndex a ≤ getNoteIndex b) notes)).length = 4 := rfl
    have hmem : (rotationsOf (List.insertionSort (fun a b => getNoteIndex a ≤ getNoteIndex b) notes)).getD p.1 []
        ∈ rotationsOf (List.insertionSort (fun a b => getNoteIndex a ≤ getNoteIndex b) notes) := by
      rw [List.getD_eq_getElem _ _ (by rw [hrl]; exact hidx)]
      exact List.getElem_mem _
    obtain ⟨hil, hiperm⟩ := hrot_prim _ hmem
    obtain ⟨hrl2, hrperm⟩ := dropRemap_perm type _ hil
    exact ⟨hrl2, hrperm.trans (hiperm.trans hsp)⟩
  · -- input variant drop attempts
    rw [List.mem_map] at hB
    obtain ⟨inv, hinv, rfl⟩ := hB
    obtain ⟨hil, hiperm⟩ := hrot_inp _ hinv
    obtain ⟨hrl2, hrperm⟩ := dropRemap_perm type _ hil
    exact ⟨hrl2, hrperm.trans hiperm⟩
  · -- close forms of the sorted rotations
    rw [List.mem_map] at hC
    obtain ⟨p, hp, rfl⟩ := hC
    have hp1 := (List.of_mem_zip hp).1
    obtain ⟨hil, hiperm⟩ := hrot_prim _ hp1
    exact ⟨hil, hiperm.trans hsp⟩
  · -- close forms of the input rotations
    rw [List.mem_map] at hD
    obtain ⟨inv, hinv, rfl⟩ := hD
    exact hrot_inp _ hinv

theorem shellAttempts_spec (type : VoicingType) (notes : List String) (h : notes.length = 3) :
    ∀ att ∈ shellAttempts type notes,
      att.1.length = 3 ∧ att.1.Perm notes ∧ att.2.2.Nodup ∧ att.2.2.length = 3 := by
  obtain ⟨r, t3, s7, rfl⟩ := exists_three notes h
  intro att hatt
  unfold shellAttempts at hatt
  split_ifs at hatt with hfg <;>
    simp only [List.getD_cons_zero, List.getD_cons_succ, List.mem_cons,
      List.not_mem_nil, or_false] at hatt
  · rcases hatt with rfl | rfl | rfl
    · exact ⟨rfl, List.Perm.cons r (List.Perm.swap t3 s7 []),
        (by decide : ([0, 2, 3] : List ℕ).Nodup), rfl⟩
    · exact ⟨rfl, List.Perm.cons r (List.Perm.swap t3 s7 []),
        (by decide : ([1, 2, 3] : List ℕ).Nodup), rfl⟩
    · exact ⟨rfl, List.Perm.refl _,
        (by decide : ([1, 2, 3] : List ℕ).Nodup), rfl⟩
  · rcases hatt with rfl | rfl | rfl | rfl | rfl
    · exact ⟨rfl, List.Perm.cons r (List.Perm.swap t3 s7 []),
        (by decide : ([0, 2, 3] : List ℕ).Nodup), rfl⟩
    · exact ⟨rfl, List.Perm.refl _,
        (by decide : ([0, 2, 3] : List ℕ).Nodup), rfl⟩
    · exact ⟨rfl, List.Perm.refl _,
        (by decide : ([1, 2, 3] : List ℕ).Nodup), rfl⟩
    · exact ⟨rfl, List.Perm.cons r (List.Perm.swap t3 s7 []),
        (by decide : ([1, 2, 3] : List ℕ).Nodup), rfl⟩
    · exact ⟨rfl, List.Perm.cons r (List.Perm.swap t3 s7 []),
        (by decide : ([1, 3, 4] : List ℕ).Nodup), rfl⟩

theorem generateVoicings_drop_mem (notes : List String) (type : VoicingType)
    (sso : Option (List ℕ)) (htype : type = .Drop2 ∨ type = .Drop3 ∨ type = .Drop2_4)
    (v : Voicing) (hv : v ∈ generateVoicings notes type sso) :
    notes.length = 4 ∧ ∃ att ∈ dropAttempts type notes,
      fretSearch att.1 (sso.getD (defaultStringSet type)) 4 18 (spanLimit type)
          = some v.positions ∧ v.name = att.2 := by
  unfold generateVoicings at hv
  rw [if_pos htype] at hv
  split_ifs at hv with hlen
  · simp at hv
  · rw [Classical.not_not] at hlen
    refine ⟨by omega, ?_⟩
    rcases mem_fold_runAttempt 4 18 (spanLimit type) _ _ _ v hv with hin | ⟨att, hmem, combo, hfs, hv2⟩
    · simp at hin
    · subst hv2
      exact ⟨att, hmem, hfs, rfl⟩

theorem generateVoicings_shell_mem (notes : List String) (type : VoicingType)
    (sso : Option (List ℕ)) (htype : type = .Shell ∨ type = .FreddieGreen)
    (v : Voicing) (hv : v ∈ generateVoicings notes type sso) :
    notes.length = 3 ∧ ∃ att ∈ shellAttempts type notes,
      fretSearch att.1 att.2.2 3 16 4 = some v.positions ∧ v.name = att.2.1 := by
  have hnd : ¬(type = VoicingType.Drop2 ∨ type = VoicingType.Drop3 ∨
      type = VoicingType.Drop2_4) := by
    rcases htype with rfl | rfl <;> simp
  unfold generateVoicings at hv
  rw [if_neg hnd] at hv
  split_ifs at hv with hlen
  · simp at hv
  · rw [Classical.not_not] at hlen
    refine ⟨by omega, ?_⟩
    unfold generateShellVoicings at hv
    rcases mem_fold_shell _ _ v hv with hin | ⟨att, hmem, combo, hfs, hv2⟩
    · simp at hin
    · subst hv2
      exact ⟨att, hmem, hfs, rfl⟩

theorem combo_strings_take (combo : List FretPosition) (ss : List ℕ) (n : ℕ)
    (hcl : combo.length = n) (hn : n ≤ ss.length)
    (hpt : ∀ i (hi : i < n) (hci : i < combo.length),
      (combo.get ⟨i, hci⟩).string = ss.getD i 0) :
    combo.map (fun p => p.string) = ss.take n := by
  apply List.ext_get
  · simp [hcl, hn]
  · intro i h1 h2
    simp only [List.length_map, hcl] at h1
    simp only [List.get_eq_getElem, List.getElem_map, List.getElem_take]
    have := hpt i h1 (by omega)
    simp only [List.get_eq_getElem] at this
    rw [this, List.getD_eq_getElem ss 0 (by omega)]

theorem combo_notes_eq (combo : List FretPosition) (targets : List String)
    (ss : List ℕ) (n maxFret : ℕ)
    (hcl : combo.length = n) (htl : targets.length = n)
    (hpt : ∀ i (hi : i < n) (hci : i < combo.length),
      combo.get ⟨i, hci⟩ ∈ stringPositions (ss.getD i 0) (targets.getD i "") maxFret) :
    combo.map (fun p => p.note) = targets := by
  apply List.ext_get
  · simp [hcl, htl]
  · intro i h1 h2
    simp only [List.length_map, hcl] at h1
    simp only [List.get_eq_getElem, List.getElem_map]
    have hmem := hpt i h1 (by omega)
    have h3 := (mem_stringPositions _ _ _ _ hmem).2.2.2.1
    simp only [List.get_eq_getElem] at h3
    rw [h3, List.getD_eq_getElem targets "" (by omega)]

/-- C1: every voicing produced by `generateVoicings` (with the type's
default string set or a well-formed caller override of at least four
pairwise-distinct strings) avoids fret 0, keeps its fret span within the
type's limit (4 for Drop2/Drop3/Shell/FreddieGreen, 5 for Drop2_4), and
places its positions on pairwise-distinct strings. -/
theorem C1_voicing_playability (notes : List String) (type : VoicingType)
    (sso : Option (List ℕ))
    (hsso : ∀ ss, sso = some ss → ss.Nodup ∧ 4 ≤ ss.length) :
    ∀ v ∈ generateVoicings notes type sso,
      (∀ p ∈ v.positions, 1 ≤ p.fret) ∧
      spanOf v.positions ≤ spanLimit type ∧
      (v.positions.map (fun p => p.string)).Nodup := by
  intro v hv
  by_cases htype : type = .Drop2 ∨ type = .Drop3 ∨ type = .Drop2_4
  · obtain ⟨hlen, att, hatt, hfs, hname⟩ := generateVoicings_drop_mem notes type sso htype v hv
    obtain ⟨hcl, hspan, hpt⟩ := fretSearch_spec _ _ _ _ _ _ hfs
    have hss : (sso.getD (defaultStringSet type)).Nodup ∧
        4 ≤ (sso.getD (defaultStringSet type)).length := by
      cases sso with
      | none =>
        rcases htype with rfl | rfl | rfl <;>
          exact ⟨by decide, by decide⟩
      | some ss => simpa using hsso ss rfl
    refine ⟨?_, hspan, ?_⟩
    · intro p hp
      obtain ⟨⟨i, hci⟩, rfl⟩ := List.mem_iff_get.mp hp
      have := mem_stringPositions _ _ _ _ (hpt i (by omega) hci)
      exact this.2.1
    · have heq := combo_strings_take v.positions _ 4 hcl hss.2 (fun i hi hci =>
        (mem_stringPositions _ _ _ _ (hpt i hi hci)).1)
      rw [heq]
      exact List.Nodup.sublist (List.take_sublist _ _) hss.1
  · have htype2 : type = .Shell ∨ type = .FreddieGreen := by
      cases type <;> simp_all
    obtain ⟨hlen, att, hatt, hfs, hname⟩ := generateVoicings_shell_mem notes type sso htype2 v hv
    obtain ⟨hcl, hspan, hpt⟩ := fretSearch_spec _ _ _ _ _ _ hfs
    obtain ⟨-, -, hnd, hsl3⟩ := shellAttempts_spec type notes hlen att hatt
    have hlim : spanLimit type = 4 := by rcases htype2 with rfl | rfl <;> rfl
    refine ⟨?_, by rw [hlim]; exact hspan, ?_⟩
    · intro p hp
      obtain ⟨⟨i, hci⟩, rfl⟩ := List.mem_iff_get.mp hp
      have := mem_stringPositions _ _ _ _ (hpt i (by omega) hci)
      exact this.2.1
    · have heq := combo_strings_take v.positions _ 3 hcl (by omega) (fun i hi hci =>
        (mem_stringPositions _ _ _ _ (hpt i hi hci)).1)
      rw [heq]
      exact List.Nodup.sublist (List.take_sublist _ _) hnd

/-- C2: every voicing produced by `generateVoicings` carries exactly the
input pitch-class multiset (one position per input note, as a
permutation), and each position's note agrees in pitch class with the
note sounded at its (string, fret) under standard tuning. -/
theorem C2_pitch_class_fidelity (notes : List String) (type : VoicingType)
    (sso : Option (List ℕ)) :
    ∀ v ∈ generateVoicings notes type sso,
      (v.positions.map (fun p => getNoteIndex p.note)).Perm (notes.map getNoteIndex) ∧
      ∀ p ∈ v.positions, getNoteIndex (getNoteAtFret p.string p.fret) = getNoteIndex p.note := by
  intro v hv
  by_cases htype : type = .Drop2 ∨ type = .Drop3 ∨ type = .Drop2_4
  · obtain ⟨hlen, att, hatt, hfs, hname⟩ := generateVoicings_drop_mem notes type sso htype v hv
    obtain ⟨hcl, hspan, hpt⟩ := fretSearch_spec _ _ _ _ _ _ hfs
    obtain ⟨htl, hperm⟩ := dropAttempts_spec type notes hlen att hatt
    constructor
    · have heq := combo_notes_eq v.positions att.1 _ 4 18 hcl htl hpt
      have : v.positions.map (fun p => getNoteIndex p.note)
          = (v.positions.map (fun p => p.note)).map getNoteIndex := by
        rw [List.map_map]; rfl
      rw [this, heq]
      exact hperm.map getNoteIndex
    · intro p hp
      obtain ⟨⟨i, hci⟩, rfl⟩ := List.mem_iff_get.mp hp
      obtain ⟨hstr, -, -, hnote, hsame⟩ := mem_stringPositions _ _ _ _ (hpt i (by omega) hci)
      rw [isSameNote, beq_iff_eq] at hsame
      rw [hstr, hnote]
      exact hsame
  · have htype2 : type = .Shell ∨ type = .FreddieGreen := by
      cases type <;> simp_all
    obtain ⟨hlen, att, hatt, hfs, hname⟩ := generateVoicings_shell_mem notes type sso htype2 v hv
    obtain ⟨hcl, hspan, hpt⟩ := fretSearch_spec _ _ _ _ _ _ hfs
    obtain ⟨htl, hperm, -, -⟩ := shellAttempts_spec type notes hlen att hatt
    constructor
    · have heq := combo_notes_eq v.positions att.1 _ 3 16 hcl htl hpt
      have : v.positions.map (fun p => getNoteIndex p.note)
          = (v.positions.map (fun p => p.note)).map getNoteIndex := by
        rw [List.map_map]; rfl
      rw [this, heq]
      exact hperm.map getNoteIndex
    · intro p hp
      obtain ⟨⟨i, hci⟩, rfl⟩ := List.mem_iff_get.mp hp
      obtain ⟨hstr, -, -, hnote, hsame⟩ := mem_stringPositions _ _ _ _ (hpt i (by omega) hci)
      rw [isSameNote, beq_iff_eq] at hsame
      rw [hstr, hnote]
      exact hsame

/-- Witness for C1 at the concrete shell voicing generated for
`["C", "E", "B"]`. -/
theorem C1_witness :
    (∀ p ∈ [FretPosition.mk 0 8 "C", FretPosition.mk 2 9 "B", FretPosition.mk 3 9 "E"],
      1 ≤ p.fret) ∧
    spanOf [FretPosition.mk 0 8 "C", FretPosition.mk 2 9 "B", FretPosition.mk 3 9 "E"]
      ≤ spanLimit .Shell ∧
    (([FretPosition.mk 0 8 "C", FretPosition.mk 2 9 "B", FretPosition.mk 3 9 "E"]).map
      (fun p => p.string)).Nodup :=
  C1_voicing_playability ["C", "E", "B"] .Shell none (fun ss h => by cases h)
    (Voicing.mk "Shell R6 (R-7-3)" [⟨0, 8, "C"⟩, ⟨2, 9, "B"⟩, ⟨3, 9, "E"⟩]) (by decide)

/-- Witness for C2 at the concrete shell voicing generated for
`["C", "E", "B"]`. -/
theorem C2_witness :
    (([FretPosition.mk 0 8 "C", FretPosition.mk 2 9 "B", FretPosition.mk 3 9 "E"]).map
        (fun p => getNoteIndex p.note)).Perm (["C", "E", "B"].map getNoteIndex) ∧
    (∀ p ∈ [FretPosition.mk 0 8 "C", FretPosition.mk 2 9 "B", FretPosition.mk 3 9 "E"],
      getNoteIndex (getNoteAtFret p.string p.fret) = getNoteIndex p.note) :=
  C2_pitch_class_fidelity ["C", "E", "B"] .Shell none
    (Voicing.mk "Shell R6 (R-7-3)" [⟨0, 8, "C"⟩, ⟨2, 9, "B"⟩, ⟨3, 9, "E"⟩]) (by decide)

theorem beatCount_four : beatCount (4 : ℚ) = 4 := by
  have h1 : ⌈(4 : ℚ)⌉ = (4 : ℤ) := by norm_num
  rw [beatCount, h1]
  rfl

theorem beatCount_half_times_four : beatCount ((2 : ℚ)⁻¹ * 4) = 2 := by
  have h0 : ((2 : ℚ)⁻¹ * 4) = 2 := by norm_num
  have h1 : ⌈(2 : ℚ)⌉ = (2 : ℤ) := by norm_num
  rw [beatCount, h0, h1]
  rfl

theorem chords_length_pos (t : ProgressionType) (key : String) :
    (getChordsForProgression t key).length ≠ 0 := by
  cases t <;> simp [getChordsForProgression, PROGRESSIONS]

theorem totalBeats_le_160 (t : ProgressionType) (key : String) :
    totalBeats (getChordsForProgression t key) ≤ 160 := by
  cases t <;>
    simp [totalBeats, getChordsForProgression, PROGRESSIONS, List.zip_cons_cons,
      List.replicate, beatCount_four, beatCount_half_times_four]

theorem flatMap_rep_length {β α : Type} (c : β → ℕ) (g : β → α) (l : List β) :
    (l.flatMap (fun p => List.replicate (c p) (g p))).length = (l.map c).sum := by
  induction l with
  | nil => rfl
  | cons x xs ih => simp [ih]

theorem flatMap_rep_getElem {β α : Type} (c : β → ℕ) (g : β → α) :
    ∀ (l : List β) (i : ℕ) (hi : i < l.length) (b : ℕ), b < c (l.get ⟨i, hi⟩) →
      (l.flatMap (fun p => List.replicate (c p) (g p)))[(((l.take i).map c).sum + b)]?
        = some (g (l.get ⟨i, hi⟩)) := by
  intro l
  induction l with
  | nil => intro i hi; simp at hi
  | cons x xs ih =>
    intro i hi b hb
    cases i with
    | zero =>
      simp only [List.take_zero, List.map_nil, List.sum_nil, Nat.zero_add,
        List.flatMap_cons, List.get_cons_zero] at hb ⊢
      rw [List.getElem?_append_left
        (show b < (List.replicate (c x) (g x)).length by
          rw [List.length_replicate]; exact hb)]
      rw [List.getElem?_replicate, if_pos (show b < c x from hb)]
      rfl
    | succ j =>
      simp only [List.get_cons_succ] at hb ⊢
      simp only [List.flatMap_cons, List.take_succ_cons, List.map_cons, List.sum_cons]
      rw [List.getElem?_append_right (by simp only [List.length_replicate]; omega)]
      simp only [List.length_replicate]
      have heq : c x + (List.map c (List.take j xs)).sum + b - c x
          = (List.map c (List.take j xs)).sum + b := by omega
      rw [heq]
      exact ih j (by simpa using hi) b hb

theorem selectNext_eq_none_iff (prev : Option VoicingM) (c : List VoicingM) :
    selectNext prev c = none ↔ c = [] := by
  unfold selectNext
  split_ifs with h
  · constructor
    · intro hm
      exfalso
      cases prev with
      | some p =>
        rw [List.head?_eq_none_iff] at hm
        have := List.length_insertionSort
          (fun a b => getDistance p a ≤ getDistance p b) c
        rw [hm] at this
        simp at this
        omega
      | none =>
        unfold homeSort at hm
        rw [List.head?_eq_none_iff] at hm
        have := List.length_insertionSort
          (fun a b => |getAverageFret a - 5| ≤ |getAverageFret b - 5|) c
        rw [hm] at this
        simp at this
        omega
    · intro he
      subst he
      simp at h
  · constructor
    · intro _
      have : c.length = 0 := by omega
      exact List.eq_nil_of_length_eq_zero this
    · intro _
      rfl

theorem selectRest_getD_none_iff :
    ∀ (cs : List (List VoicingM)) (prev : Option VoicingM) (j : ℕ), j < cs.length →
      ((selectRest prev cs).getD j none = none ↔ cs.getD j [] = []) := by
  intro cs
  induction cs with
  | nil => intro prev j hj; simp at hj
  | cons c more ih =>
    intro prev j hj
    cases j with
    | zero =>
      simp only [selectRest, List.getD_cons_zero]
      exact selectNext_eq_none_iff prev c
    | succ k =>
      simp only [selectRest, List.getD_cons_succ]
      exact ih _ k (by simpa using hj)

theorem selectVoicings_getD_none_iff (cands : List (List VoicingM)) (i : ℕ)
    (hi : i < cands.length) :
    ((selectVoicings cands).getD i none = none ↔ cands.getD i [] = []) := by
  cases cands with
  | nil => simp at hi
  | cons c0 rest =>
    cases i with
    | zero =>
      simp only [selectVoicings, List.getD_cons_zero]
      split_ifs with h
      · constructor
        · intro hm
          exfalso
          unfold homeSort at hm
          rw [List.head?_eq_none_iff] at hm
          have := List.length_insertionSort
            (fun a b => |getAverageFret a - 5| ≤ |getAverageFret b - 5|) c0
          rw [hm] at this
          simp at this
          omega
        · intro he
          subst he
          simp at h
      · constructor
        · intro _
          have : c0.length = 0 := by omega
          exact List.eq_nil_of_length_eq_zero this
        · intro _
          rfl
    | succ k =>
      simp only [selectVoicings, List.getD_cons_succ]
      exact selectRest_getD_none_iff rest _ k (by simpa using hi)

theorem zip_take_eq {α β : Type} :
    ∀ (i : ℕ) (l1 : List α) (l2 : List β),
      (l1.zip l2).take i = (l1.take i).zip (l2.take i) := by
  intro i
  induction i with
  | zero => simp
  | succ j ih =>
    intro l1 l2
    cases l1 <;> cases l2 <;> simp [ih]

theorem map_snd_zip_fn {α β γ : Type} (f : β → γ) (l1 : List α) (l2 : List β)
    (h : l2.length ≤ l1.length) :
    (l1.zip l2).map (fun p => f p.2) = l2.map f := by
  have h1 : (l1.zip l2).map (fun p => f p.2) = ((l1.zip l2).map Prod.snd).map f := by
    rw [List.map_map]
    rfl
  rw [h1, List.map_snd_zip l1 l2 h]

/-- C5: `generateProgressionSequence` always returns exactly 160 slots;
the expanded chord list's total beat span fits in 160; each chord's
selected voicing is replicated over its beat span renamed to the expanded
chord symbol; slots beyond the last chord's span stay null; and a chord's
selection is null exactly when it has no candidate voicings. -/
theorem C5_progression_sequence (t : ProgressionType) (key : String)
    (vt : VoicingType) (ss : List ℕ) :
    (generateProgressionSequence t key vt ss).length = 160 ∧
    totalBeats (getChordsForProgression t key) ≤ 160 ∧
    (∀ i (hi : i < (getChordsForProgression t key).length) (b : ℕ),
      b < beatCount ((getChordsForProgression t key).get ⟨i, hi⟩).durationBeats →
      (generateProgressionSequence t key vt ss)[beatOffset (getChordsForProgression t key) i + b]?
        = some (((selectVoicings ((getChordsForProgression t key).map
              (candidatesFor vt ss))).getD i none).map
            (fun v => { v with name := ((getChordsForProgression t key).get ⟨i, hi⟩).name }))) ∧
    (∀ j, totalBeats (getChordsForProgression t key) ≤ j → j < 160 →
      (generateProgressionSequence t key vt ss)[j]? = some none) ∧
    (∀ i, i < (getChordsForProgression t key).length →
      (((selectVoicings ((getChordsForProgression t key).map (candidatesFor vt ss))).getD i none
          = none)
        ↔ ((getChordsForProgression t key).map (candidatesFor vt ss)).getD i [] = [])) := by
  have hlen0 : (getChordsForProgression t key).length ≠ 0 := chords_length_pos t key
  have hps : generateProgressionSequence t key vt ss
      = buildSeq (getChordsForProgression t key)
          (selectVoicings ((getChordsForProgression t key).map (candidatesFor vt ss))) := by
    unfold generateProgressionSequence
    rw [if_neg hlen0]
  have hsl : (selectVoicings ((getChordsForProgression t key).map
      (candidatesFor vt ss))).length = (getChordsForProgression t key).length := by
    rw [selectVoicings_length, List.length_map]
  have hzl : ((selectVoicings ((getChordsForProgression t key).map (candidatesFor vt ss))).zip
      (getChordsForProgression t key)).length = (getChordsForProgression t key).length := by
    rw [List.length_zip, hsl]
    omega
  have hfl : ((((selectVoicings ((getChordsForProgression t key).map
        (candidatesFor vt ss))).zip (getChordsForProgression t key)).flatMap
      (fun p => List.replicate (beatCount p.2.durationBeats)
        (p.1.map (fun v => { v with name := p.2.name })))).length)
      = totalBeats (getChordsForProgression t key) := by
    rw [flatMap_rep_length]
    rw [map_snd_zip_fn (fun (ch : GeneratedChord) => beatCount ch.durationBeats)
      (selectVoicings ((getChordsForProgression t key).map (candidatesFor vt ss)))
      (getChordsForProgression t key) (by omega)]
    rfl
  refine ⟨?_, totalBeats_le_160 t key, ?_, ?_, ?_⟩
  · rw [hps]
    simp only [buildSeq, List.length_take, List.length_append, List.length_replicate]
    omega
  · intro i hi b hb
    have hofb : beatOffset (getChordsForProgression t key) i + b
        < totalBeats (getChordsForProgression t key) := by
      have hmi : i < ((getChordsForProgression t key).map
          (fun ch => beatCount ch.durationBeats)).length := by
        rw [List.length_map]; exact hi
      have hsplit := List.sum_take_add_sum_drop
        ((getChordsForProgression t key).map (fun ch => beatCount ch.durationBeats)) i
      have hdrop := List.drop_eq_getElem_cons hmi
      rw [hdrop, List.sum_cons, List.getElem_map] at hsplit
      have hto : beatOffset (getChordsForProgression t key) i
          = ((((getChordsForProgression t key).map
              (fun ch => beatCount ch.durationBeats)).take i)).sum := by
        rw [beatOffset, List.map_take]
      have hb2 : b < beatCount (getChordsForProgression t key)[i].durationBeats := hb
      rw [totalBeats, hto]
      omega
    rw [hps]
    simp only [buildSeq]
    rw [List.getElem?_take, if_pos (by have := totalBeats_le_160 t key; omega)]
    rw [List.getElem?_append_left (by rw [hfl]; exact hofb)]
    have hizip : i < ((selectVoicings ((getChordsForProgression t key).map
        (candidatesFor vt ss))).zip (getChordsForProgression t key)).length := by
      rw [hzl]; exact hi
    have hoff : beatOffset (getChordsForProgression t key) i
        = (((((selectVoicings ((getChordsForProgression t key).map
            (candidatesFor vt ss))).zip (getChordsForProgression t key)).take i).map
          (fun p => beatCount p.2.durationBeats)).sum) := by
      rw [zip_take_eq]
      rw [map_snd_zip_fn (fun (ch : GeneratedChord) => beatCount ch.durationBeats)
        ((selectVoicings ((getChordsForProgression t key).map (candidatesFor vt ss))).take i)
        ((getChordsForProgression t key).take i)
        (by simp only [List.length_take]; omega)]
      rfl
    have hget : (((selectVoicings ((getChordsForProgression t key).map
        (candidatesFor vt ss))).zip (getChordsForProgression t key)).get ⟨i, hizip⟩)
        = ((selectVoicings ((getChordsForProgression t key).map
            (candidatesFor vt ss))).getD i none,
           (getChordsForProgression t key).get ⟨i, hi⟩) := by
      simp only [List.get_eq_getElem, List.getElem_zip]
      rw [List.getD_eq_getElem _ none (by omega)]
    have happ := flatMap_rep_getElem
      (fun (p : Option VoicingM × GeneratedChord) => beatCount p.2.durationBeats)
      (fun (p : Option VoicingM × GeneratedChord) =>
        p.1.map (fun v => { v with name := p.2.name }))
      _ i hizip b (by rw [hget]; exact hb)
    rw [hoff]
    rw [happ, hget]
  · intro j hj h160
    rw [hps]
    simp only [buildSeq]
    rw [List.getElem?_take, if_pos h160]
    rw [List.getElem?_append_right (by rw [hfl]; exact hj)]
    rw [hfl]
    rw [List.getElem?_replicate, if_pos (by omega)]
  · intro i hi
    exact selectVoicings_getD_none_iff _ i (by rw [List.length_map]; exact hi)
